import Mathlib

set_option linter.unreachableTactic false
set_option linter.unnecessarySeqFocus false
set_option linter.unusedTactic false

/-!
# Shallow embedding of the qclang compiler

This file embeds, in Lean, the parts of the qclang Rust compiler that the
specification claims talk about, and proves or refutes each claim against the
embedded code.

Modelling conventions used throughout:
* Rust `HashMap` is modelled by an association list (`envSet` replaces the
  existing entry in place, and appends new entries at the end); Rust hash
  iteration order is not deterministic, so wherever the code iterates over a
  map we fix insertion order as the canonical order.
* Rust `Vec` push is `++ [x]` on Lean lists.
* `Result<T, E>` propagation with `?` is modelled by a `Bool` "aborted" flag
  threaded through the checker (the error payload is always the error list at
  abort time, exactly as in the Rust code which returns `self.errors.clone()`).
* `usize`/`i64` are modelled as `Nat`/`Int` (no overflow is relevant to any
  claim here), `f64` literals carried around but never computed with are
  modelled as `Rat`, and the simulator's `f64`/`Complex<f64>` arithmetic is
  modelled exactly over `ℝ`/`ℂ` (rounding is outside the model).
-/

namespace QcSpec

/-!
## Part 1: the affine ownership checker
Embedding of `src/compiler/src/semantics/ownership_checker.rs`.

That file pattern-matches an AST of its own shape (`Stmt::Let(name, ty, expr)`
without span or mutability, `Expr::GateApply(gate_name, args)` with a string
gate name compared against "CNOT", `Type::Qreg(_, _)`), so the checker AST is
embedded here with exactly the constructors the checker distinguishes; all
statement forms the checker's `_ => {}` arm swallows are one `other`
constructor.
-/

inductive QubitState
  | Uninitialized
  | Alive
  | Measured
  | Consumed
  deriving DecidableEq, Repr

/-- Types as the ownership checker matches them (`Type` in the checker's AST).
`qreg` carries no size because the checker only ever matches `Qreg(_, _)`. -/
inductive CTy
  | int
  | float
  | bool
  | str
  | qubit
  | cbit
  | qreg
  | unit
  deriving DecidableEq, Repr

/-- Expressions as the ownership checker matches them. -/
inductive CExpr
  | litInt (n : Int)
  | litQubit (bits : List Nat)
  | var (name : String)
  | gateApply (gate : String) (args : List CExpr)
  | measure (e : CExpr)
  | call (fname : String) (args : List CExpr)

/-- Statements as the ownership checker matches them; `other` stands for every
statement form hit by the checker's `_ => {}` arm. -/
inductive CStmt
  | letDecl (name : String) (ty : CTy) (e : CExpr)
  | assign (name : String) (e : CExpr)
  | exprS (e : CExpr)
  | ret (e : Option CExpr)
  | other

structure CFunction where
  name : String
  params : List (String × CTy)
  returnType : CTy
  body : List CStmt

structure CProgram where
  functions : List CFunction

/-- The `qubit_env: HashMap<String, QubitState>` as an association list. -/
def envGet : List (String × QubitState) → String → Option QubitState
  | [], _ => none
  | (k, v) :: rest, n => if k = n then some v else envGet rest n

def envSet : List (String × QubitState) → String → QubitState → List (String × QubitState)
  | [], n, v => [(n, v)]
  | (k, w) :: rest, n, v =>
    if k = n then (n, v) :: rest else (k, w) :: envSet rest n v

def envContains (env : List (String × QubitState)) (n : String) : Bool :=
  (envGet env n).isSome

/-- The mutable fields of `OwnershipChecker`. -/
structure ChkSt where
  errors : List String
  qubitEnv : List (String × QubitState)
  quantumFns : List String
  currentFn : String
  currentRet : CTy
  deriving DecidableEq, Repr

def pushErr (st : ChkSt) (msg : String) : ChkSt :=
  { st with errors := st.errors ++ [msg] }

/-- `'name'` with the quotes written as escapes. -/
def squote (s : String) : String := "\x27" ++ s ++ "\x27"

def useUninitMsg (n : String) : String :=
  "Use of uninitialized qubit " ++ squote n

def useMeasuredMsg (n : String) : String :=
  "Use of measured qubit " ++ squote n

def useConsumedMsg (n : String) : String :=
  "Use of consumed qubit " ++ squote n

def assignAfterMsg (n : String) (how : String) : String :=
  "Cannot assign to qubit " ++ squote n ++ " after it has been " ++ how

def cnotAliasMsg (n : String) : String :=
  "CNOT gate cannot have same qubit as control and target: " ++ squote n

/-- Rust `{:?}` rendering of a `Vec<String>`. -/
def renderNames (l : List String) : String :=
  "[" ++ String.intercalate ", " (l.map (fun n => "\"" ++ n ++ "\"")) ++ "]"

def exitMsg (fname : String) (unconsumed : List String) : String :=
  "Function " ++ squote fname ++ " ends with unconsumed qubits: " ++
    renderNames unconsumed ++
    ". All qubits must be measured, returned, or passed to another function."

def returnMsg (fname : String) (unconsumed : List String) : String :=
  "Function " ++ squote fname ++ " returns but has unconsumed qubits: " ++
    renderNames unconsumed ++ ". All qubits must be measured or explicitly passed."

/-- Result of a checker step: new state plus an "aborted with Err" flag. -/
abbrev ChkRes := ChkSt × Bool

/-- Sequencing that models Rust's `?`. -/
def andThen (r : ChkRes) (k : ChkSt → ChkRes) : ChkRes :=
  if r.2 then r else k r.1

/-- `OwnershipChecker::use_qubit`. -/
def useQubit (st : ChkSt) (name : String) : ChkRes :=
  match envGet st.qubitEnv name with
  | some .Alive => (st, false)
  | some .Uninitialized => (pushErr st (useUninitMsg name), true)
  | some .Measured => (pushErr st (useMeasuredMsg name), true)
  | some .Consumed => (pushErr st (useConsumedMsg name), true)
  | none => (st, false)

/-- `OwnershipChecker::consume_qubit`. -/
def consumeQubit (st : ChkSt) (name : String) : ChkRes :=
  andThen (useQubit st name) fun st1 =>
    ({ st1 with qubitEnv := envSet st1.qubitEnv name .Consumed }, false)

def isQubitInitializer : CExpr → Bool
  | .litQubit _ => true
  | _ => false

def isQubitExpression (st : ChkSt) : CExpr → Bool
  | .var n => envContains st.qubitEnv n
  | _ => false

/-- The per-argument CNOT aliasing check done inside the `GateApply` loop
(the Rust code repeats it for each argument). -/
def cnotCheck (st : ChkSt) (gname : String) (allArgs : List CExpr) : ChkSt :=
  if gname = "CNOT" then
    match allArgs with
    | [CExpr.var a, CExpr.var b] =>
      if a = b then pushErr st (cnotAliasMsg a) else st
    | _ => st
  else st

mutual

/-- `OwnershipChecker::check_expr`. -/
def checkExpr (st : ChkSt) (e : CExpr) : ChkRes :=
  match e with
  | .var name =>
    match envGet st.qubitEnv name with
    | some .Uninitialized => (pushErr st (useUninitMsg name), false)
    | some .Measured => (pushErr st (useMeasuredMsg name), false)
    | some .Consumed => (pushErr st (useConsumedMsg name), false)
    | _ => (st, false)
  | .gateApply gname args => checkGateArgs st gname args args
  | .measure qe => checkExpr st qe
  | .call fname args =>
    if st.quantumFns.contains fname then checkQCallArgs st args
    else checkCCallArgs st args
  | _ => (st, false)

/-- The `for arg in args` loop of the `GateApply` arm: check each argument,
then (inside the loop) run the CNOT aliasing check against the full list. -/
def checkGateArgs (st : ChkSt) (gname : String) (allArgs : List CExpr)
    (args : List CExpr) : ChkRes :=
  match args with
  | [] => (st, false)
  | a :: rest =>
    andThen (checkExpr st a) fun st1 =>
      checkGateArgs (cnotCheck st1 gname allArgs) gname allArgs rest

/-- The argument loop of a call to a quantum function: consume each
`Variable` argument present in the qubit env, then check it. -/
def checkQCallArgs (st : ChkSt) (args : List CExpr) : ChkRes :=
  match args with
  | [] => (st, false)
  | a :: rest =>
    let step : ChkRes :=
      match a with
      | .var n => if envContains st.qubitEnv n then consumeQubit st n else (st, false)
      | _ => (st, false)
    andThen step fun st1 =>
      andThen (checkExpr st1 a) fun st2 => checkQCallArgs st2 rest

/-- The argument loop of a call to a classical function. -/
def checkCCallArgs (st : ChkSt) (args : List CExpr) : ChkRes :=
  match args with
  | [] => (st, false)
  | a :: rest =>
    andThen (checkExpr st a) fun st1 => checkCCallArgs st1 rest

end

/-- The `for arg in args { if let Expr::Variable ... use_qubit(..)? }` loop of
the `Stmt::Assign` / `Alive` / `GateApply` branch. -/
def useGateArgs (st : ChkSt) (args : List CExpr) : ChkRes :=
  match args with
  | [] => (st, false)
  | .var n :: rest => andThen (useQubit st n) fun st1 => useGateArgs st1 rest
  | _ :: rest => useGateArgs st rest

def aliveNames (env : List (String × QubitState)) : List String :=
  (env.filter (fun p => decide (p.2 = QubitState.Alive))).map (·.1)

/-- The unconsumed-qubits check done inside `Stmt::Return`. -/
def returnCheck (st : ChkSt) : ChkSt :=
  let unconsumed := aliveNames st.qubitEnv
  if unconsumed ≠ [] ∧ st.currentRet = CTy.unit then
    pushErr st (returnMsg st.currentFn unconsumed)
  else st

/-- `OwnershipChecker::check_statement`. -/
def checkStatement (st : ChkSt) (s : CStmt) : ChkRes :=
  match s with
  | .letDecl name ty e =>
    match ty with
    | .qubit =>
      let st := { st with qubitEnv := envSet st.qubitEnv name .Uninitialized }
      andThen (checkExpr st e) fun st1 =>
        if isQubitInitializer e then
          ({ st1 with qubitEnv := envSet st1.qubitEnv name .Alive }, false)
        else (st1, false)
    | .cbit =>
      andThen (checkExpr st e) fun st1 =>
        match e with
        | .measure (.var qname) => consumeQubit st1 qname
        | _ => (st1, false)
    | _ => checkExpr st e
  | .assign v e =>
    let step1 : ChkRes :=
      match envGet st.qubitEnv v with
      | some .Measured => (pushErr st (assignAfterMsg v "measured"), false)
      | some .Consumed => (pushErr st (assignAfterMsg v "consumed"), false)
      | some .Alive =>
        match e with
        | .gateApply _ args =>
          andThen (useGateArgs st args) fun st1 =>
            ({ st1 with qubitEnv := envSet st1.qubitEnv v .Alive }, false)
        | _ => (st, false)
      | _ => (st, false)
    andThen step1 fun st1 => checkExpr st1 e
  | .exprS e =>
    andThen (checkExpr st e) fun st1 =>
      match e with
      | .measure (.var qname) => consumeQubit st1 qname
      | _ => (st1, false)
  | .ret none => (returnCheck st, false)
  | .ret (some e) =>
    andThen (checkExpr st e) fun st1 =>
      let afterConsume : ChkRes :=
        if isQubitExpression st1 e then
          match e with
          | .var qname => consumeQubit st1 qname
          | _ => (st1, false)
        else (st1, false)
      andThen afterConsume fun st2 => (returnCheck st2, false)
  | .other => (st, false)

def checkStmts (st : ChkSt) : List CStmt → ChkRes
  | [] => (st, false)
  | s :: rest => andThen (checkStatement st s) fun st1 => checkStmts st1 rest

/-- `OwnershipChecker::is_quantum_function`. -/
def isQuantumFunction (f : CFunction) : Bool :=
  match f.returnType with
  | .qubit => true
  | .qreg => true
  | _ =>
    f.params.any fun p =>
      match p.2 with
      | .qubit => true
      | .qreg => true
      | _ => false

/-- `OwnershipChecker::check_function_exit` (never aborts). -/
def checkFunctionExit (st : ChkSt) (f : CFunction) : ChkSt :=
  let unconsumed := aliveNames st.qubitEnv
  if unconsumed ≠ [] then pushErr st (exitMsg f.name unconsumed) else st

/-- One iteration of the second pass of `check_program`: reset the per-function
state, check the body, then enforce quantum resource cleanup. -/
def checkFunction (st : ChkSt) (f : CFunction) : ChkRes :=
  let st := { st with currentFn := f.name, currentRet := f.returnType, qubitEnv := [] }
  andThen (checkStmts st f.body) fun st1 => (checkFunctionExit st1 f, false)

def checkFuns (st : ChkSt) : List CFunction → ChkRes
  | [] => (st, false)
  | f :: rest => andThen (checkFunction st f) fun st1 => checkFuns st1 rest

def initialChkSt (prog : CProgram) : ChkSt :=
  { errors := []
    qubitEnv := []
    quantumFns := (prog.functions.filter isQuantumFunction).map (·.name)
    currentFn := ""
    currentRet := CTy.unit }

/-- `OwnershipChecker::check_program`. -/
def checkProgram (prog : CProgram) : Except (List String) Unit :=
  let r := checkFuns (initialChkSt prog) prog.functions
  if r.2 then .error r.1.errors
  else if r.1.errors = [] then .ok () else .error r.1.errors

/-!
## Part 2: the QIR data model
Embedding of `src/compiler/src/qir/types.rs`, `operations.rs` and `mod.rs`.
`QubitId`/`CbitId`/`BlockId`/`TempId` are modelled as `Nat`; `f64` fields that
are only stored and compared (never computed with) are modelled as `Rat`.
-/

/-- `BinaryOp` from `ast.rs`. -/
inductive AstBinOp
  | add | sub | mul | div
  | eq | neq | lt | gt | le | ge
  | and | or | xor
  | assign | addAssign | subAssign | mulAssign | divAssign
  deriving DecidableEq, Repr

/-- `UnaryOp` from `ast.rs`. -/
inductive AstUnOp
  | neg | not
  | preIncrement | postIncrement | preDecrement | postDecrement
  | increment | decrement
  deriving DecidableEq, Repr

/-- `BitState` from `qir/types.rs`. -/
inductive BitState
  | Zero
  | One
  | Plus
  | Minus
  | Unknown
  deriving DecidableEq, Repr

/-- `QirGate` from `qir/operations.rs`. -/
inductive QirGate
  | H | X | Y | Z | CNOT | SWAP
  | T | Tdg | S | Sdg
  | RX (angle : Rat) | RY (angle : Rat) | RZ (angle : Rat)
  | U3 (theta phi lambda : Rat)
  | Toffoli | Fredkin
  | Custom (name : String) (matrix : List (List Rat))
  deriving DecidableEq, Repr

/-- `QirValue` from `qir/types.rs`. -/
inductive QirValue
  | qubit (id : Nat)
  | cbit (id : Nat)
  | int (n : Int)
  | float (f : Rat)
  | bool (b : Bool)
  | str (s : String)
  | tuple (vals : List QirValue)
  | array (vals : List QirValue)
  | temp (id : Nat)
  | var (name : String)
  | null

mutual

/-- Structural equality of `QirValue`s (Rust `PartialEq`; `f64` NaN behaviour
is outside the model since no claim involves NaN values). -/
def qirValueEq : QirValue → QirValue → Bool
  | .qubit a, .qubit b => a == b
  | .cbit a, .cbit b => a == b
  | .int a, .int b => a == b
  | .float a, .float b => a == b
  | .bool a, .bool b => a == b
  | .str a, .str b => a == b
  | .tuple a, .tuple b => qirValueListEq a b
  | .array a, .array b => qirValueListEq a b
  | .temp a, .temp b => a == b
  | .var a, .var b => a == b
  | .null, .null => true
  | _, _ => false

def qirValueListEq : List QirValue → List QirValue → Bool
  | [], [] => true
  | a :: as', b :: bs' => qirValueEq a b && qirValueListEq as' bs'
  | _, _ => false

end

/-- `QirType` from `qir/types.rs`. -/
inductive QirType
  | int | float | bool | str | qubit | cbit
  | qreg (size : Nat)
  | unit
  | tuple (tys : List QirType)
  | array (elem : QirType) (size : Nat)
  | struct' (name : String) (fields : List QirType)
  | func (params : List QirType) (ret : QirType)
  | pointer (inner : QirType)

structure QirParam where
  name : String
  ty : QirType
  mutable : Bool

/-- `QirOp` from `qir/operations.rs`. -/
inductive QirOp
  | allocQubit (result : Nat) (initState : Option BitState)
  | applyGate (gate : QirGate) (args : List QirValue) (result : Option Nat)
  | measure (qubit : Nat) (cbit : Nat)
  | reset (qubit : Nat)
  | allocCbit (result : Nat) (initValue : Option Nat)
  | classicalAssign (target : Nat) (value : QirValue)
  | binaryOp (op : AstBinOp) (lhs rhs : QirValue) (result : Nat)
  | unaryOp (op : AstUnOp) (operand : QirValue) (result : Nat)
  | jump (target : Nat)
  | branch (cond : QirValue) (thenBlock elseBlock : Nat)
  | ret (value : Option QirValue)
  | load (ptr : Nat) (result : Nat)
  | store (ptr : Nat) (value : QirValue)
  | getElementPtr (base : Nat) (indices : List Nat) (result : Nat)
  | makeStruct (fieldValues : List QirValue) (result : Nat)
  | extractField (structVal : QirValue) (fieldIndex : Nat) (result : Nat)
  | insertField (structVal : QirValue) (fieldIndex : Nat) (value : QirValue) (result : Nat)
  | makeArray (elements : List QirValue) (result : Nat)
  | arrayGet (arr : QirValue) (index : Nat) (result : Nat)
  | arraySet (arr : QirValue) (index : Nat) (value : QirValue) (result : Nat)
  | phi (incoming : List (Nat × QirValue)) (result : Nat)
  | comment (text : String)

/-- `QirBlock` from `qir/mod.rs`. -/
structure QirBlock where
  id : Nat
  ops : List QirOp
  predecessors : List Nat
  successors : List Nat
  liveQubits : Finset ℕ
  liveCbits : Finset ℕ

/-- `QirFunction` from `qir/mod.rs`; the `HashMap<BlockId, QirBlock>` is a
list of blocks in insertion order. -/
structure QirFunction where
  name : String
  params : List QirParam
  returnType : QirType
  entryBlock : Nat
  blocks : List QirBlock
  currentBlock : Nat
  nextBlockId : Nat
  nextQubitId : Nat
  nextCbitId : Nat
  nextTempId : Nat

/-- `QirModule` from `qir/mod.rs`. -/
structure QirModule where
  name : String
  version : String
  functions : List QirFunction
  globalQubits : List Nat
  globalCbits : List Nat
  metadata : List (String × String)

/-- `QirFunction::new`. -/
def QirFunction.new (name : String) (params : List QirParam) (returnType : QirType) :
    QirFunction :=
  { name := name
    params := params
    returnType := returnType
    entryBlock := 0
    blocks := [{ id := 0, ops := [], predecessors := [], successors := [],
                 liveQubits := ∅, liveCbits := ∅ }]
    currentBlock := 0
    nextBlockId := 1
    nextQubitId := 0
    nextCbitId := 0
    nextTempId := 0 }

/-- `QirFunction::add_op` (appends to the current block). -/
def QirFunction.addOp (f : QirFunction) (op : QirOp) : QirFunction :=
  { f with blocks := f.blocks.map fun b =>
      if b.id = f.currentBlock then { b with ops := b.ops ++ [op] } else b }

/-- `QirModule::new`. -/
def QirModule.new (name : String) : QirModule :=
  { name := name, version := "1.0.0", functions := [], globalQubits := [],
    globalCbits := [], metadata := [] }

def QirModule.addFunction (m : QirModule) (f : QirFunction) : QirModule :=
  { m with functions := m.functions ++ [f] }

/-- `QirModule::qubit_count`: global qubits plus the sum of the per-function
`next_qubit_id` counters. -/
def QirModule.qubitCount (m : QirModule) : Nat :=
  m.globalQubits.length + (m.functions.map (·.nextQubitId)).sum

def isApplyGate : QirOp → Bool
  | .applyGate _ _ _ => true
  | _ => false

def isMeasureOp : QirOp → Bool
  | .measure _ _ => true
  | _ => false

/-- `QirModule::gate_count`. -/
def QirModule.gateCount (m : QirModule) : Nat :=
  ((m.functions.flatMap (·.blocks)).flatMap (·.ops)).countP (fun op => isApplyGate op)

/-- `QirModule::measurement_count`. -/
def QirModule.measurementCount (m : QirModule) : Nat :=
  ((m.functions.flatMap (·.blocks)).flatMap (·.ops)).countP (fun op => isMeasureOp op)

/-- `QirBlock::is_terminated`. -/
def QirBlock.isTerminated (b : QirBlock) : Bool :=
  match b.ops.getLast? with
  | some (.jump _) => true
  | some (.branch _ _ _) => true
  | some (.ret _) => true
  | _ => false

/-!
## Part 3: the QIR builder
Embedding of `src/compiler/src/qir/builder.rs` over the AST of `ast.rs`.
Spans are dropped (the builder never reads them); `TypeAlias`/`StructDef`
statement payloads are dropped (the builder's `_` arm skips those statements
unexamined).
-/

/-- `Type` from `ast.rs`. -/
inductive BTy
  | int
  | float
  | bool
  | str
  | qubit
  | qreg (size : Nat)
  | cbit
  | array (elem : BTy) (size : Nat)
  | func (params : List BTy) (ret : BTy)
  | unit
  | tuple (tys : List BTy)
  | named (name : String)

mutual

/-- `Gate` from `ast.rs` (rotation gates capture their angle expression). -/
inductive BGate
  | H | X | Y | Z | CNOT
  | RX (angle : BExpr) | RY (angle : BExpr) | RZ (angle : BExpr)
  | T | S | SWAP

/-- `Expr` from `ast.rs` (spans dropped). -/
inductive BExpr
  | litInt (n : Int)
  | litFloat (f : Rat)
  | litBool (b : Bool)
  | litStr (s : String)
  | litQubit (bits : List Nat)
  | var (name : String)
  | binOp (lhs : BExpr) (op : AstBinOp) (rhs : BExpr)
  | unOp (op : AstUnOp) (e : BExpr)
  | call (name : String) (args : List BExpr)
  | index (arr : BExpr) (idx : BExpr)
  | memberAccess (base : BExpr) (field : String)
  | measure (e : BExpr)
  | gateApply (gate : BGate) (args : List BExpr)
  | tuple (elements : List BExpr)
  | structLit (name : String) (fields : List (String × BExpr))

end

/-- `Stmt` from `ast.rs` (spans dropped). -/
inductive BStmt
  | exprS (e : BExpr)
  | letDecl (name : String) (ty : BTy) (e : BExpr) (mutable : Bool)
  | assign (name : String) (e : BExpr)
  | block (stmts : List BStmt)
  | ifS (cond : BExpr) (thenBr : BStmt) (elseBr : Option BStmt)
  | whileS (cond : BExpr) (body : BStmt)
  | forRange (v : String) (start : BExpr) (stop : BExpr) (step : Option BExpr) (body : BStmt)
  | ret (e : Option BExpr)
  | breakS
  | continueS
  | qif (cond : BExpr) (thenBr : BStmt) (elseBr : Option BStmt)
  | qfor (v : String) (start : BExpr) (stop : BExpr) (step : Option BExpr) (body : BStmt)
  | typeAliasS
  | structDefS

/-- `Param` from `ast.rs`. -/
structure BParam where
  name : String
  ty : BTy
  mutable : Bool

/-- `Function` from `ast.rs`. -/
structure BFunction where
  name : String
  params : List BParam
  returnType : BTy
  body : List BStmt

/-- `QirGate::from_ast_gate` (rotation angles become the placeholder `0.0`). -/
def qirGateFromAstGate : BGate → Option QirGate
  | .H => some .H
  | .X => some .X
  | .Y => some .Y
  | .Z => some .Z
  | .CNOT => some .CNOT
  | .RX _ => some (.RX 0)
  | .RY _ => some (.RY 0)
  | .RZ _ => some (.RZ 0)
  | .T => some .T
  | .S => some .S
  | .SWAP => some .SWAP

/-- `QirBuilder::convert_type`. -/
def convertType : BTy → QirType
  | .int => .int
  | .float => .float
  | .bool => .bool
  | .str => .str
  | .qubit => .qubit
  | .cbit => .cbit
  | .qreg size => .qreg size
  | .array elem size => .array (convertType elem) size
  | .unit => .unit
  | .tuple tys => .tuple (tys.attach.map fun t => convertType t.1)
  | .named n => .struct' n []
  | .func _ _ => .unit
termination_by t => sizeOf t
decreasing_by
  all_goals simp_wf
  all_goals try omega
  have := List.sizeOf_lt_of_mem t.2
  omega

/-- The builder-side mutable state: the builder's own counters and local
symbol table together with the `QirFunction` under construction. -/
structure BuildSt where
  symbolTable : List (String × (QirType × QirValue))
  qubitCounter : Nat
  cbitCounter : Nat
  tempCounter : Nat
  fn : QirFunction

def symGet (tbl : List (String × (QirType × QirValue))) (n : String) :
    Option (QirType × QirValue) :=
  match tbl with
  | [] => none
  | (k, v) :: rest => if k = n then some v else symGet rest n

def symSet (tbl : List (String × (QirType × QirValue))) (n : String)
    (v : QirType × QirValue) : List (String × (QirType × QirValue)) :=
  match tbl with
  | [] => [(n, v)]
  | (k, w) :: rest => if k = n then (n, v) :: rest else (k, w) :: symSet rest n v

def addOp (st : BuildSt) (op : QirOp) : BuildSt :=
  { st with fn := st.fn.addOp op }

/-- Rust `i64 as usize` (two's-complement wraparound). -/
def i64AsUsize (n : Int) : Nat := (n % (2 ^ 64 : Int)).toNat

/-- Rust `str::find(char)` as a character index (identifiers are ASCII, so
byte and character indices agree). -/
def findCharIdx (s : String) (c : Char) : Option Nat :=
  s.toList.findIdx? (fun ch => ch == c)

/-- Rust `str::parse::<usize>` restricted to plain digit strings (the builder
only ever feeds it slices of identifiers). -/
def parseUsize (s : String) : Option Nat :=
  let cs := s.toList
  if cs ≠ [] ∧ cs.all (fun c => c.isDigit) then
    some (cs.foldl (fun acc c => acc * 10 + (c.toNat - 48)) 0)
  else none

/-- The index-resolution shared by `build_gate_apply_expr`'s argument loop:
a literal integer, or a variable bound to an `Int` in the symbol table. -/
def resolveIdx (tbl : List (String × (QirType × QirValue))) : BExpr → Option Nat
  | .litInt n => some (i64AsUsize n)
  | .var vname =>
    match symGet tbl vname with
    | some (_, .int i) => some (i64AsUsize i)
    | _ => none
  | _ => none

/-- `QirBuilder::build_measure_expr`: a `Measure` op is emitted only for an
index expression into an array-valued binding whose selected element is a
qubit; every other operand shape yields `Null` and emits nothing. -/
def buildMeasureExpr (st : BuildSt) (qubitExpr : BExpr) : BuildSt × QirValue :=
  match qubitExpr with
  | .index (.var arrayName) idxExpr =>
    match symGet st.symbolTable arrayName with
    | some (_, .array elements) =>
      match resolveIdx st.symbolTable idxExpr with
      | none => (st, .null)
      | some idx =>
        match elements[idx]? with
        | some (.qubit qubitId) =>
          let cbitId := st.cbitCounter
          let st := { st with cbitCounter := st.cbitCounter + 1 }
          (addOp st (.measure qubitId cbitId), .cbit cbitId)
        | _ => (st, .null)
    | _ => (st, .null)
  | _ => (st, .null)

/-- The `first_qubit` bookkeeping of `build_gate_apply_expr`: the first
argument value that is a qubit. -/
def firstQubitOf (vals : List QirValue) : Option Nat :=
  vals.findSome? fun v =>
    match v with
    | .qubit q => some q
    | _ => none

mutual

/-- `QirBuilder::build_statement`. -/
def buildStmt (st : BuildSt) (s : BStmt) : BuildSt :=
  match s with
  | .letDecl name ty e _mutable => buildLetStmt st name ty e
  | .assign name e => buildAssignStmt st name e
  | .exprS e => (buildExprVal st e).1
  | .ret e => buildReturnStmt st e
  | .block stmts => buildStmts st stmts
  | .ifS _cond thenBr elseBr =>
    let st := buildStmt st thenBr
    match elseBr with
    | some br => buildStmt st br
    | none => st
  | .whileS cond body =>
    let st := (buildExprVal st cond).1
    buildStmt st body
  | .forRange v start stop _step body =>
    let (st, startVal) := buildExprVal st start
    let (st, stopVal) := buildExprVal st stop
    match startVal, stopVal with
    | .int startInt, .int stopInt =>
      buildIterate st v startInt (stopInt - startInt).toNat body
    | _, _ => st
  | .breakS => st
  | .continueS => st
  | _ => st

/-- The unrolling loop of `build_for_range_stmt`: bind the loop variable and
lower the body once per iteration. -/
def buildIterate (st : BuildSt) (v : String) (i : Int) (n : Nat) (body : BStmt) : BuildSt :=
  match n with
  | 0 => st
  | n + 1 =>
    let st := { st with symbolTable := symSet st.symbolTable v (.int, .int i) }
    let st := buildStmt st body
    buildIterate st v (i + 1) n body

def buildStmts (st : BuildSt) (stmts : List BStmt) : BuildSt :=
  match stmts with
  | [] => st
  | s :: rest => buildStmts (buildStmt st s) rest

/-- `QirBuilder::build_let_stmt`. The `Type::Cbit` arm is dead code in the
source: it only acts when the let type is simultaneously `Cbit` and `Array`,
which never holds, so a plain `cbit` let emits nothing and binds nothing. -/
def buildLetStmt (st : BuildSt) (name : String) (ty : BTy) (e : BExpr) : BuildSt :=
  match ty with
  | .qreg size =>
    let bitString : Option (List Nat) :=
      match e with
      | .litQubit bits => some bits
      | _ => none
    let st := buildQregAllocs st bitString 0 size
    let qubitValues := (List.range size).map fun i =>
      QirValue.qubit (st.qubitCounter - size + i)
    { st with symbolTable :=
        symSet st.symbolTable name (convertType ty, .array qubitValues) }
  | .cbit => st
  | _ =>
    let (st, value) := buildExprVal st e
    { st with symbolTable := symSet st.symbolTable name (convertType ty, value) }

/-- The allocation loop inside `build_let_stmt`'s `Qreg` arm: one
`AllocQubit` per register slot, initialised from the bit string. -/
def buildQregAllocs (st : BuildSt) (bitString : Option (List Nat)) (i : Nat)
    (remaining : Nat) : BuildSt :=
  match remaining with
  | 0 => st
  | r + 1 =>
    let tempId := st.tempCounter
    let st := { st with qubitCounter := st.qubitCounter + 1,
                        tempCounter := st.tempCounter + 1 }
    let initState : BitState :=
      match bitString with
      | some bits => if bits[i]? = some 1 then .One else .Zero
      | none => .Zero
    let st := addOp st (.allocQubit tempId (some initState))
    buildQregAllocs st bitString (i + 1) r

/-- `QirBuilder::build_assign_stmt`: only assignments whose target name
parses as `array[index]` do anything; a plain variable assignment is ignored
(the right-hand side is not even lowered). -/
def buildAssignStmt (st : BuildSt) (name : String) (e : BExpr) : BuildSt :=
  match findCharIdx name '[', findCharIdx name ']' with
  | some lb, some rb =>
    let arrayName := String.mk (name.toList.take lb)
    let indexStr := String.mk ((name.toList.drop (lb + 1)).take (rb - (lb + 1)))
    match parseUsize indexStr with
    | some idx =>
      let (st, newValue) := buildExprVal st e
      match symGet st.symbolTable arrayName with
      | some (ty, .array elements) =>
        if idx < elements.length then
          { st with symbolTable :=
              symSet st.symbolTable arrayName (ty, .array (elements.set idx newValue)) }
        else st
      | _ => st
    | none => st
  | _, _ => st

/-- `QirBuilder::build_return_stmt`. -/
def buildReturnStmt (st : BuildSt) (e : Option BExpr) : BuildSt :=
  let (st, value) :=
    match e with
    | some e => buildExprVal st e
    | none => (st, QirValue.null)
  match value with
  | .null => addOp st (.ret none)
  | v => addOp st (.ret (some v))

/-- `QirBuilder::build_expr_value`. -/
def buildExprVal (st : BuildSt) (e : BExpr) : BuildSt × QirValue :=
  match e with
  | .litInt n => (st, .int n)
  | .litFloat f => (st, .float f)
  | .litBool b => (st, .bool b)
  | .litStr s => (st, .str s)
  | .litQubit bits =>
    let qubitId := st.qubitCounter
    let tempId := st.tempCounter
    let st := { st with qubitCounter := st.qubitCounter + 1,
                        tempCounter := st.tempCounter + 1 }
    let initState : BitState := if bits = [1] then .One else .Zero
    (addOp st (.allocQubit tempId (some initState)), .qubit qubitId)
  | .var name =>
    match symGet st.symbolTable name with
    | some (_, value) => (st, value)
    | none => (st, .var name)
  | .binOp lhs op rhs =>
    let (st, l) := buildExprVal st lhs
    let (st, r) := buildExprVal st rhs
    let resultTemp := st.tempCounter
    let st := { st with tempCounter := st.tempCounter + 1 }
    (addOp st (.binaryOp op l r resultTemp), .temp resultTemp)
  | .unOp op operand =>
    let (st, v) := buildExprVal st operand
    let resultTemp := st.tempCounter
    let st := { st with tempCounter := st.tempCounter + 1 }
    (addOp st (.unaryOp op v resultTemp), .temp resultTemp)
  | .call name args =>
    if name = "range" then
      match args with
      | a0 :: a1 :: _ =>
        let (st, startV) := buildExprVal st a0
        let (st, stopV) := buildExprVal st a1
        (st, .tuple [startV, stopV])
      | _ => (st, .null)
    else if name = "measure" then
      match args with
      | a :: _ => buildMeasureExpr st a
      | [] => (st, .null)
    else (st, .null)
  | .measure qe => buildMeasureExpr st qe
  | .gateApply gate args =>
    let (st, argValues) := buildGateArgs st args
    match qirGateFromAstGate gate with
    | some qirGate =>
      let resultTemp := st.tempCounter
      let st := { st with tempCounter := st.tempCounter + 1 }
      let st := addOp st (.applyGate qirGate argValues (some resultTemp))
      match firstQubitOf argValues with
      | some qubitId => (st, .qubit qubitId)
      | none => (st, .null)
    | none => (st, .null)
  | .index arrExpr idxExpr =>
    let (st, arrVal) := buildExprVal st arrExpr
    let (st, idxVal) := buildExprVal st idxExpr
    match arrVal, idxVal with
    | .var arrayName, .int index =>
      (match symGet st.symbolTable arrayName with
       | some (_, .array elements) =>
         match elements[i64AsUsize index]? with
         | some v => (st, v)
         | none => (st, .null)
       | _ => (st, .null))
    | _, _ => (st, .null)
  | .memberAccess _ _ => (st, .null)
  | .tuple elements =>
    let (st, values) := buildExprList st elements
    (st, .tuple values)
  | .structLit _ _ => (st, .null)

def buildExprList (st : BuildSt) (es : List BExpr) : BuildSt × List QirValue :=
  match es with
  | [] => (st, [])
  | e :: rest =>
    let (st, v) := buildExprVal st e
    let (st, vs) := buildExprList st rest
    (st, v :: vs)

/-- The argument loop of `build_gate_apply_expr`: an argument of shape
`array[index]` with a resolvable index is read straight out of the symbol
table (and skipped entirely when the index cannot be resolved, mirroring the
`continue`s); anything else falls back to `build_expr_value`. -/
def buildGateArgs (st : BuildSt) (args : List BExpr) : BuildSt × List QirValue :=
  match args with
  | [] => (st, [])
  | arg :: rest =>
    let indexed : Option (Option QirValue) :=
      match arg with
      | .index (.var arrayName) idxExpr =>
        match symGet st.symbolTable arrayName with
        | some (_, .array elements) =>
          match resolveIdx st.symbolTable idxExpr with
          | none => some none
          | some idx =>
            match elements[idx]? with
            | some v => some (some v)
            | none => none
        | _ => none
      | _ => none
    match indexed with
    | some none =>
      buildGateArgs st rest
    | some (some v) =>
      let (st, vs) := buildGateArgs st rest
      (st, v :: vs)
    | none =>
      let (st, v) := buildExprVal st arg
      let (st, vs) := buildGateArgs st rest
      (st, v :: vs)

end

/-- `QirBuilder::build_function`: reset the per-function state, lower the
body, and record the function; no implicit terminator is appended. -/
def buildFunction (f : BFunction) : QirFunction :=
  let params : List QirParam := f.params.map fun p =>
    { name := p.name, ty := convertType p.ty, mutable := p.mutable }
  let qirFunc := QirFunction.new f.name params (convertType f.returnType)
  let st : BuildSt :=
    { symbolTable := [], qubitCounter := 0, cbitCounter := 0, tempCounter := 0,
      fn := qirFunc }
  (buildStmts st f.body).fn

/-- The function-building loop of `QirBuilder::build_from_program` (the Rust
method first re-runs semantic analysis and returns the empty module when it
fails; this models the success path, which is the one the claims are about). -/
def buildProgramModule (functions : List BFunction) : QirModule :=
  functions.foldl (fun m f => m.addFunction (buildFunction f)) (QirModule.new "main")

/-!
## Part 4: the QIR optimizer
Embedding of `src/compiler/src/qir/optimizer.rs`. Qubit sets
(`HashSet<QubitId>`) are `Finset ℕ`. The `while changed` liveness loop is
modelled by a fueled iteration whose fuel provably suffices to reach the
loop's fixpoint (see the stability lemmas in the theorem part).
-/

structure QirOptimizer where
  enableGateCancellation : Bool
  enableDeadQubitElimination : Bool
  enableConstantFolding : Bool
  enableCommonSubexpressionElimination : Bool

/-- `QirOptimizer::new(enabled)`. -/
def QirOptimizer.new (enabled : Bool) : QirOptimizer :=
  { enableGateCancellation := enabled
    enableDeadQubitElimination := enabled
    enableConstantFolding := enabled
    enableCommonSubexpressionElimination := enabled }

mutual

/-- `QirOptimizer::collect_qubits` (insertion into a `&mut HashSet` becomes
set union). -/
def collectQubits : QirValue → Finset ℕ
  | .qubit id => {id}
  | .tuple vals => collectQubitsList vals
  | .array vals => collectQubitsList vals
  | _ => ∅

def collectQubitsList : List QirValue → Finset ℕ
  | [] => ∅
  | v :: rest => collectQubits v ∪ collectQubitsList rest

end

/-- All ops of a function, blocks in insertion order (`blocks.values()`). -/
def qirAllOps (f : QirFunction) : List QirOp := f.blocks.flatMap (·.ops)

/-- Step 1 of `dead_qubit_elimination`: qubits in a `Measure` or
(transitively) in a `Return` value are initially live. -/
def dqeSeedStep (s : Finset ℕ) (op : QirOp) : Finset ℕ :=
  match op with
  | .measure q _ => insert q s
  | .ret (some v) => s ∪ collectQubits v
  | _ => s

def dqeSeeds (f : QirFunction) : Finset ℕ :=
  (qirAllOps f).foldl dqeSeedStep ∅

/-- One `ApplyGate` visit of the propagation loop: if any involved qubit is
live, all involved qubits become live. -/
def dqeStep (acc : Finset ℕ) (op : QirOp) : Finset ℕ :=
  match op with
  | .applyGate _ args _ =>
    let involved := collectQubitsList args
    if (involved ∩ acc).Nonempty then acc ∪ involved else acc
  | _ => acc

/-- One full pass of the propagation loop over every op. -/
def dqePass (f : QirFunction) (live : Finset ℕ) : Finset ℕ :=
  (qirAllOps f).foldl dqeStep live

/-- Collection step for the set of qubits mentioned by `ApplyGate` ops. -/
def gqStep (s : Finset ℕ) (op : QirOp) : Finset ℕ :=
  match op with
  | .applyGate _ args _ => s ∪ collectQubitsList args
  | _ => s

/-- Every qubit mentioned by any `ApplyGate` of the function. -/
def gateQubitsAll (f : QirFunction) : Finset ℕ :=
  (qirAllOps f).foldl gqStep ∅

/-- The `while changed` loop: repeat `dqePass` until it adds nothing. The
fuel bounds the number of strictly-growing passes; `dqeLive_stable` in the
theorem part shows the fuel below always suffices. -/
def dqeLiveAux (f : QirFunction) : Nat → Finset ℕ → Finset ℕ
  | 0, live => live
  | n + 1, live =>
    let next := dqePass f live
    if next = live then live else dqeLiveAux f n next

def dqeFuel (f : QirFunction) : Nat := (dqeSeeds f ∪ gateQubitsAll f).card + 1

/-- The live set computed by `dead_qubit_elimination`. -/
def dqeLive (f : QirFunction) : Finset ℕ :=
  dqeLiveAux f (dqeFuel f) (dqeSeeds f)

/-- Step 3 of `dead_qubit_elimination`: the retention predicate of the
`retain` call. -/
def dqeRetain (live : Finset ℕ) (op : QirOp) : Bool :=
  match op with
  | .applyGate _ args _ =>
    let involved := collectQubitsList args
    if involved = ∅ then true
    else decide (∃ q ∈ involved, q ∈ live)
  | .reset q => decide (q ∈ live)
  | _ => true

/-- `QirOptimizer::dead_qubit_elimination`. -/
def deadQubitElimination (f : QirFunction) : QirFunction :=
  let live := dqeLive f
  { f with blocks := f.blocks.map fun b => { b with ops := b.ops.filter (dqeRetain live) } }

/-- `QirOptimizer::gates_cancel`. -/
def gatesCancel (gate1 gate2 : QirGate) (args1 args2 : List QirValue) : Bool :=
  if ¬ qirValueListEq args1 args2 then false
  else
    match gate1, gate2 with
    | .H, .H => true
    | .X, .X => true
    | .Y, .Y => true
    | .Z, .Z => true
    | .CNOT, .CNOT => true
    | .SWAP, .SWAP => true
    | .S, .Sdg => true
    | .Sdg, .S => true
    | .T, .Tdg => true
    | .Tdg, .T => true
    | _, _ => false

/-- Whether the adjacent ops at positions `i`, `i+1` are a cancelling
`ApplyGate` pair. -/
def cancelAt (ops : List QirOp) (i : Nat) : Bool :=
  match ops[i]?, ops[i + 1]? with
  | some (.applyGate g1 a1 _), some (.applyGate g2 a2 _) => gatesCancel g1 g2 a1 a2
  | _, _ => false

/-- The scan loop of `QirOptimizer::gate_cancellation`: on a cancelling
adjacent pair delete both ops and rescan from the same index, otherwise
advance. -/
def gcScan (ops : List QirOp) (i : Nat) : List QirOp :=
  if _h : i < ops.length then
    if _h2 : i + 1 < ops.length then
      if cancelAt ops i then gcScan ((ops.eraseIdx (i + 1)).eraseIdx i) i
      else gcScan ops (i + 1)
    else gcScan ops (i + 1)
  else ops
termination_by ops.length - i
decreasing_by
  · have e1 : (ops.eraseIdx (i + 1)).length = ops.length - 1 := by
      rw [List.length_eraseIdx, if_pos _h2]
    have hi : i < (ops.eraseIdx (i + 1)).length := by omega
    have e2 : ((ops.eraseIdx (i + 1)).eraseIdx i).length = (ops.eraseIdx (i + 1)).length - 1 := by
      rw [List.length_eraseIdx, if_pos hi]
    omega
  · omega
  · omega

/-- `QirOptimizer::gate_cancellation`. -/
def gateCancellation (f : QirFunction) : QirFunction :=
  { f with blocks := f.blocks.map fun b => { b with ops := gcScan b.ops 0 } }

/-- `QirOptimizer::constant_folding` is a placeholder with an empty body. -/
def constantFolding (f : QirFunction) : QirFunction := f

/-- `QirOptimizer::common_subexpression_elimination` is a placeholder with an
empty body. -/
def commonSubexpressionElimination (f : QirFunction) : QirFunction := f

/-- `QirOptimizer::remove_empty_blocks` collects removal candidates but the
removal loop performs no mutation ("we skip removing to ensure stability"),
so it leaves the function unchanged. -/
def removeEmptyBlocks (f : QirFunction) : QirFunction := f

/-- `QirOptimizer::optimize_function`. -/
def optimizeFunction (o : QirOptimizer) (f : QirFunction) : QirFunction :=
  let f := if o.enableConstantFolding then constantFolding f else f
  let f := if o.enableDeadQubitElimination then deadQubitElimination f else f
  let f := if o.enableGateCancellation then gateCancellation f else f
  let f := if o.enableCommonSubexpressionElimination then commonSubexpressionElimination f else f
  removeEmptyBlocks f

/-- `QirOptimizer::optimize_module`. -/
def optimizeModule (o : QirOptimizer) (m : QirModule) : QirModule :=
  if ¬ o.enableGateCancellation ∧ ¬ o.enableDeadQubitElimination then m
  else { m with functions := m.functions.map (optimizeFunction o) }

/-!
## Part 5: symbol table and semantic analyzer fragment
Embedding of `src/compiler/src/semantics/symbols.rs` (`SymbolTable`) and the
`analyze_qreg_declaration` method of `src/compiler/src/semantics/analyzer.rs`,
over the `ast.rs` types of Part 3. The scope stack is a list whose last
element is the innermost scope (Rust `Vec` top).
-/

structure AStructField where
  name : String
  ty : BTy

structure AStructDef where
  name : String
  fields : List AStructField

/-- `Symbol` from `symbols.rs`. -/
inductive Symbol
  | variableS (name : String) (ty : BTy) (mutable : Bool) (defined : Bool)
  | functionS (name : String) (params : List BParam) (returnType : BTy) (defined : Bool)
  | typeAliasS (name : String) (target : BTy)
  | structS (name : String) (definition : AStructDef)

def Symbol.name : Symbol → String
  | .variableS n _ _ _ => n
  | .functionS n _ _ _ => n
  | .typeAliasS n _ => n
  | .structS n _ => n

/-- `SymbolTable` from `symbols.rs`: a stack of name-to-symbol scopes. -/
structure SymbolTable where
  scopes : List (List (String × Symbol))

def SymbolTable.new : SymbolTable := ⟨[[]]⟩

/-- `SymbolTable::push_scope`. -/
def SymbolTable.pushScope (t : SymbolTable) : SymbolTable :=
  ⟨t.scopes ++ [[]]⟩

/-- `SymbolTable::pop_scope`: a no-op when at most one scope remains. -/
def SymbolTable.popScope (t : SymbolTable) : SymbolTable :=
  if t.scopes.length > 1 then ⟨t.scopes.dropLast⟩ else t

/-- `SymbolTable::current_scope` (`self.scopes.last().unwrap()`); the `unwrap`
panic on an empty stack is modelled as `none`. -/
def SymbolTable.currentScope? (t : SymbolTable) : Option (List (String × Symbol)) :=
  t.scopes.getLast?

def scopeGet (scope : List (String × Symbol)) (n : String) : Option Symbol :=
  match scope with
  | [] => none
  | (k, v) :: rest => if k = n then some v else scopeGet rest n

def scopeSet (scope : List (String × Symbol)) (n : String) (v : Symbol) :
    List (String × Symbol) :=
  match scope with
  | [] => [(n, v)]
  | (k, w) :: rest => if k = n then (n, v) :: rest else (k, w) :: scopeSet rest n v

/-- `SymbolTable::insert`: fails (second component `false`) when the name is
already in the innermost scope; the empty-stack case cannot occur starting
from `SymbolTable.new` (the Rust code would panic there). -/
def SymbolTable.insertSym (t : SymbolTable) (sym : Symbol) : SymbolTable × Bool :=
  match t.scopes.getLast? with
  | none => (t, false)
  | some top =>
    if (scopeGet top sym.name).isSome then (t, false)
    else (⟨t.scopes.dropLast ++ [scopeSet top sym.name sym]⟩, true)

/-- `SymbolTable::lookup`: innermost scope first. -/
def SymbolTable.lookupSym (t : SymbolTable) (n : String) : Option Symbol :=
  go t.scopes.reverse
where
  go : List (List (String × Symbol)) → Option Symbol
    | [] => none
    | scope :: rest =>
      match scopeGet scope n with
      | some s => some s
      | none => go rest

/-- One client operation on a symbol table (for stating the stack invariant). -/
inductive SymOp
  | push
  | pop
  | insert (sym : Symbol)
  | lookup (n : String)

def applySymOp (t : SymbolTable) : SymOp → SymbolTable
  | .push => t.pushScope
  | .pop => t.popScope
  | .insert sym => (t.insertSym sym).1
  | .lookup _ => t

def runSymOps (ops : List SymOp) : SymbolTable :=
  ops.foldl applySymOp SymbolTable.new

/-- `Span` from `ast.rs` (for diagnostics). -/
structure ASpan where
  line : Nat
  column : Nat
  startPos : Nat
  endPos : Nat
  deriving DecidableEq, Repr

/-- `SemanticError` from `semantics/errors.rs`. -/
structure SemanticError where
  message : String
  span : ASpan
  hint : Option String
  deriving DecidableEq, Repr

/-- The fields of `SemanticAnalyzer` that `analyze_qreg_declaration` reads or
writes (the full struct also carries a type registry, warnings and context
flags that this method never touches). -/
structure AnalyzerSt where
  symbolTable : SymbolTable
  errors : List SemanticError

def pushSemErr (st : AnalyzerSt) (span : ASpan) (message : String)
    (hint : Option String) : AnalyzerSt :=
  { st with errors := st.errors ++ [{ message := message, span := span, hint := hint }] }

def bitLengthMsg (len size : Nat) : String :=
  "Bit string length " ++ toString len ++ " doesn\x27t match qreg size " ++ toString size

def insertFailedMsg (n : String) : String :=
  "Symbol " ++ squote n ++ " already defined in this scope"

/-- `SemanticAnalyzer::analyze_qreg_declaration`. -/
def analyzeQregDeclaration (st : AnalyzerSt) (name : String) (size : Nat)
    (e : BExpr) (mutable : Bool) (span : ASpan) : AnalyzerSt :=
  let st :=
    if mutable then
      pushSemErr st span "Quantum registers cannot be mutable"
        (some "Remove \x27mut\x27 keyword from qreg declaration")
    else st
  let st :=
    match e with
    | .litQubit bits =>
      if bits.length ≠ size then
        pushSemErr st span (bitLengthMsg bits.length size)
          (some "Bit string must have same length as qreg size")
      else st
    | _ =>
      pushSemErr st span "Qreg must be initialized with a bit string literal"
        (some "Use syntax: qreg name[size] = |bits...>;")
  let sym := Symbol.variableS name (.qreg size) false true
  match st.symbolTable.insertSym sym with
  | (tbl, true) => { st with symbolTable := tbl }
  | (_, false) =>
    pushSemErr st span ("Failed to add qreg " ++ squote name ++ ": " ++ insertFailedMsg name)
      none

/-!
## Part 6: the statevector simulator's measurement
Embedding of `Simulator::measure` from `src/compiler/src/simulator.rs`.
The amplitude vector is a `List ℂ`; `f64` arithmetic is modelled exactly over
`ℝ`; the call `rng.gen::<f64>()`, which draws uniformly from `[0, 1)`, is
modelled by an explicit parameter `u`. Rust's `i & (1 << target) != 0` is
`Nat.testBit`.
-/

/-- The probability-of-one accumulation loop. -/
noncomputable def probOneOf (state : List ℂ) (target : Nat) : ℝ :=
  (List.range state.length).foldl
    (fun acc i =>
      if Nat.testBit i target then acc + Complex.normSq (state.getD i 0) else acc)
    0

/-- `Simulator::measure`: draw the outcome, then renormalise the consistent
amplitudes unless the drawn outcome's probability is not positive. -/
noncomputable def simMeasure (state : List ℂ) (target : Nat) (u : ℝ) :
    Nat × List ℂ :=
  let probOne := probOneOf state target
  let result : Nat := if u < probOne then 1 else 0
  let prob : ℝ := if result = 1 then probOne else 1 - probOne
  if prob > 0 then
    let norm := 1 / Real.sqrt prob
    let newState := (List.range state.length).map fun i =>
      let bitVal : Nat := if Nat.testBit i target then 1 else 0
      if bitVal = result then state.getD i 0 * (norm : ℂ) else 0
    (result, newState)
  else (result, state)

/-- The local `prob` of `Simulator::measure`: the probability of the drawn
outcome `r`. -/
noncomputable def probOfOutcome (state : List ℂ) (target : Nat) (r : Nat) : ℝ :=
  if r = 1 then probOneOf state target else 1 - probOneOf state target

/-!
## Part 7: concrete inputs used by the claims
-/

/-- The S1 source
`fn main() -> int { qubit q = |0>; q = H(q); cbit r = measure(q); return 0; }`
as the parser produces it (`q = H(q);` becomes `Stmt::Assign` because its
left-hand side is a plain variable; `measure(q)` becomes `Expr::Measure`). -/
def s1Main : BFunction :=
  { name := "main"
    params := []
    returnType := .int
    body :=
      [ .letDecl "q" .qubit (.litQubit [0]) false
      , .assign "q" (.gateApply .H [.var "q"])
      , .letDecl "r" .cbit (.measure (.var "q")) false
      , .ret (some (.litInt 0)) ] }

def s1Module : QirModule := buildProgramModule [s1Main]

/-- The S3 source
`fn main() -> int { qubit q = |0>; cbit r = measure(q); q = X(q); return 0; }`
over the checker's AST. -/
def s3Main : CFunction :=
  { name := "main"
    params := []
    returnType := .int
    body :=
      [ .letDecl "q" .qubit (.litQubit [0])
      , .letDecl "r" .cbit (.measure (.var "q"))
      , .assign "q" (.gateApply "X" [.var "q"])
      , .ret (some (.litInt 0)) ] }

def s3Program : CProgram := { functions := [s3Main] }

/-- A function whose lowering ends in a non-terminator op: its body is a
single qubit declaration. -/
def leakMain : BFunction :=
  { name := "main", params := [], returnType := .int,
    body := [.letDecl "q" .qubit (.litQubit [0]) false] }

/-- A `QirFunction` with the given entry-block ops (as built by
`QirFunction::new` followed by `add_op` calls). -/
def singleBlockFn (ops : List QirOp) : QirFunction :=
  { QirFunction.new "main" [] .int with
      blocks := [{ id := 0, ops := ops, predecessors := [], successors := [],
                   liveQubits := ∅, liveCbits := ∅ }] }

def singleFnModule (ops : List QirOp) : QirModule :=
  { QirModule.new "main" with functions := [singleBlockFn ops] }

/-- Gate-cancellation counterexample block: `S; X; X; S†`, all on qubit 0. -/
def c5Ops : List QirOp :=
  [ .applyGate .S [.qubit 0] (some 0)
  , .applyGate .X [.qubit 0] (some 1)
  , .applyGate .X [.qubit 0] (some 2)
  , .applyGate .Sdg [.qubit 0] (some 3) ]

/-- Optimizer-idempotence counterexample: two cancelling CNOTs entangle
qubit 1 with the measured qubit 0; once they are cancelled, a second
dead-qubit-elimination pass finds `H` on qubit 1 dead. -/
def c6Ops : List QirOp :=
  [ .applyGate .CNOT [.qubit 0, .qubit 1] (some 0)
  , .applyGate .CNOT [.qubit 0, .qubit 1] (some 1)
  , .applyGate .H [.qubit 1] (some 2)
  , .measure 0 0
  , .ret none ]

def c6Module : QirModule := singleFnModule c6Ops

/-- Dead-qubit-elimination witness function: `H q1; CNOT (q0, q1); X q2;
Reset q2; Measure q0`. Qubits 0 and 1 are live, qubit 2 is dead. -/
def c7Fn : QirFunction :=
  singleBlockFn
    [ .applyGate .H [.qubit 1] (some 0)
    , .applyGate .CNOT [.qubit 0, .qubit 1] (some 1)
    , .applyGate .X [.qubit 2] (some 2)
    , .reset 2
    , .measure 0 0
    , .ret none ]

/-!
## Part 8: predicates and helpers used by the verification
-/

/-- Appending several ops to the current block at once (`add_op` iterated);
`QirFunction.addOp f op = f.appendOps [op]` definitionally. -/
def QirFunction.appendOps (f : QirFunction) (l : List QirOp) : QirFunction :=
  { f with blocks := f.blocks.map fun b =>
      if b.id = f.currentBlock then { b with ops := b.ops ++ l } else b }

/-- The builder invariant: a builder step only appends ops to the current
block of the function under construction. -/
def BStep (st r : BuildSt) : Prop :=
  ∃ l, r.fn = st.fn.appendOps l

/-- The checker invariant relating a state to the result of a checker call:
errors only grow, already-measured/consumed bindings keep their state, and
the quantum-function table and function context are untouched. -/
def ChkStep (st : ChkSt) (r : ChkRes) : Prop :=
  (∃ l, r.1.errors = st.errors ++ l) ∧
  (∀ n v, envGet st.qubitEnv n = some v → (v = .Measured ∨ v = .Consumed) →
    envGet r.1.qubitEnv n = some v) ∧
  r.1.quantumFns = st.quantumFns ∧
  r.1.currentFn = st.currentFn ∧
  r.1.currentRet = st.currentRet

/-- Closure condition of the dead-qubit liveness analysis at one op, in the
specification's wording: measured qubits are live, qubits appearing
(transitively through tuples/arrays) in a returned value are live, and all
operands of a gate are live as soon as one is. -/
def dqeOpClosed (S : Finset ℕ) (op : QirOp) : Prop :=
  match op with
  | .measure q _ => q ∈ S
  | .ret (some v) => collectQubits v ⊆ S
  | .applyGate _ args _ => ((collectQubitsList args) ∩ S).Nonempty → collectQubitsList args ⊆ S
  | _ => True

instance (S : Finset ℕ) (op : QirOp) : Decidable (dqeOpClosed S op) :=
  match op with
  | .measure q _ => inferInstanceAs (Decidable (q ∈ S))
  | .ret none => inferInstanceAs (Decidable True)
  | .ret (some v) => inferInstanceAs (Decidable (collectQubits v ⊆ S))
  | .applyGate _ _args _ => inferInstanceAs (Decidable (_ → _))
  | .allocQubit _ _ => inferInstanceAs (Decidable True)
  | .reset _ => inferInstanceAs (Decidable True)
  | .allocCbit _ _ => inferInstanceAs (Decidable True)
  | .classicalAssign _ _ => inferInstanceAs (Decidable True)
  | .binaryOp _ _ _ _ => inferInstanceAs (Decidable True)
  | .unaryOp _ _ _ => inferInstanceAs (Decidable True)
  | .jump _ => inferInstanceAs (Decidable True)
  | .branch _ _ _ => inferInstanceAs (Decidable True)
  | .load _ _ => inferInstanceAs (Decidable True)
  | .store _ _ => inferInstanceAs (Decidable True)
  | .getElementPtr _ _ _ => inferInstanceAs (Decidable True)
  | .makeStruct _ _ => inferInstanceAs (Decidable True)
  | .extractField _ _ _ => inferInstanceAs (Decidable True)
  | .insertField _ _ _ _ => inferInstanceAs (Decidable True)
  | .makeArray _ _ => inferInstanceAs (Decidable True)
  | .arrayGet _ _ _ => inferInstanceAs (Decidable True)
  | .arraySet _ _ _ _ => inferInstanceAs (Decidable True)
  | .phi _ _ => inferInstanceAs (Decidable True)
  | .comment _ => inferInstanceAs (Decidable True)

/-- A set closed under the dead-qubit liveness rules for every op of a list. -/
def DqeClosedOps (ops : List QirOp) (S : Finset ℕ) : Prop :=
  ∀ op ∈ ops, dqeOpClosed S op

/-- A set closed under the dead-qubit liveness rules of a function. -/
def DqeClosed (f : QirFunction) (S : Finset ℕ) : Prop :=
  DqeClosedOps (qirAllOps f) S

instance (ops : List QirOp) (S : Finset ℕ) : Decidable (DqeClosedOps ops S) :=
  inferInstanceAs (Decidable (∀ op ∈ ops, dqeOpClosed S op))

instance (f : QirFunction) (S : Finset ℕ) : Decidable (DqeClosed f S) :=
  inferInstanceAs (Decidable (DqeClosedOps (qirAllOps f) S))

/-- The state `check_function` resets before walking a function body. -/
def fnStart (st : ChkSt) (f : CFunction) : ChkSt :=
  { st with currentFn := f.name, currentRet := f.returnType, qubitEnv := [] }

/-- The result of checking a function body from its starting state;
`check_function` is `bodyRes` followed by `check_function_exit`. -/
def bodyRes (st : ChkSt) (f : CFunction) : ChkRes :=
  checkStmts (fnStart st f) f.body

/-- A function that leaks a qubit: `fn main() -> int { qubit q = |0>; }`
(note the non-unit return type). -/
def c2Fn : CFunction :=
  { name := "main", params := [], returnType := .int,
    body := [.letDecl "q" .qubit (.litQubit [0])] }

def c2Program : CProgram := { functions := [c2Fn] }

/-- A checker state in which `q` is recorded as measured. -/
def c3MeasuredSt : ChkSt :=
  { errors := [], qubitEnv := [("q", QubitState.Measured)], quantumFns := [],
    currentFn := "main", currentRet := CTy.int }

/-- The removal condition the specification states for dead-qubit
elimination: a gate all of whose (at least one) operands are dead, or a
reset of a dead qubit. -/
def dqeRemovesSpec (S : Finset ℕ) (op : QirOp) : Prop :=
  match op with
  | .applyGate _ args _ => collectQubitsList args ≠ ∅ ∧ collectQubitsList args ∩ S = ∅
  | .reset q => q ∉ S
  | _ => False

/-!
## Theorems

Helper lemmas first, then one theorem per claim (with its witness or
counterexample where required).
-/

section SymbolTableTheorems

theorem applySymOp_scopes_pos (t : SymbolTable) (op : SymOp)
    (h : 1 ≤ t.scopes.length) : 1 ≤ (applySymOp t op).scopes.length := by
  cases op with
  | push => simp [applySymOp, SymbolTable.pushScope]
  | pop =>
    simp only [applySymOp, SymbolTable.popScope]
    split
    · simp only [List.length_dropLast]
      omega
    · exact h
  | insert sym =>
    simp only [applySymOp, SymbolTable.insertSym]
    cases hlast : t.scopes.getLast? with
    | none => simpa using h
    | some top =>
      simp only
      split
      · exact h
      · simp [List.length_dropLast]
  | lookup n => exact h

theorem foldl_symOps_scopes_pos (ops : List SymOp) :
    ∀ t : SymbolTable, 1 ≤ t.scopes.length → 1 ≤ (ops.foldl applySymOp t).scopes.length := by
  induction ops with
  | nil => intro t h; simpa using h
  | cons op rest ih =>
    intro t h
    exact ih _ (applySymOp_scopes_pos t op h)

/-- C9: the symbol table's scope stack is never empty: starting from
`SymbolTable::new` (one scope), `push_scope` adds a scope and `pop_scope`
refuses to remove the last one, so after any sequence of push/pop/insert/
lookup operations at least one scope remains and `current_scope` (the
`last().unwrap()`) is defined. -/
theorem C9_scope_stack_never_empty (ops : List SymOp) :
    1 ≤ (runSymOps ops).scopes.length ∧
      (runSymOps ops).currentScope?.isSome = true := by
  have h1 : 1 ≤ (runSymOps ops).scopes.length :=
    foldl_symOps_scopes_pos ops SymbolTable.new (by simp [SymbolTable.new])
  refine ⟨h1, ?_⟩
  have hne : (runSymOps ops).scopes ≠ [] := by
    intro he
    rw [he] at h1
    simp at h1
  simpa [SymbolTable.currentScope?, List.getLast?_isSome] using hne

end SymbolTableTheorems

section SimulatorTheorems

/-- C10: `Simulator::measure` always returns outcome 0 or 1; when the drawn
outcome's probability is zero the renormalization is skipped and the
amplitude vector is returned unchanged (so no division by zero is performed);
otherwise the amplitudes inconsistent with the outcome are zeroed and the
consistent ones are scaled by `1 / sqrt p`. The parameter `u` is the uniform
draw from `[0, 1)` made by `rng.gen::<f64>()`. -/
theorem C10_measure_outcome_and_renormalization (state : List ℂ) (target : Nat)
    (u : ℝ) (h0 : 0 ≤ u) (h1 : u < 1) :
    ((simMeasure state target u).1 = 0 ∨ (simMeasure state target u).1 = 1) ∧
    (probOfOutcome state target (simMeasure state target u).1 = 0 →
      (simMeasure state target u).2 = state) ∧
    (probOfOutcome state target (simMeasure state target u).1 ≠ 0 →
      (simMeasure state target u).2 =
        (List.range state.length).map fun i =>
          if (if Nat.testBit i target then 1 else 0) = (simMeasure state target u).1 then
            state.getD i 0 *
              ((1 / Real.sqrt (probOfOutcome state target (simMeasure state target u).1) : ℝ) : ℂ)
          else 0) := by
  have hunfold : simMeasure state target u =
      (if probOfOutcome state target (if u < probOneOf state target then 1 else 0) > 0 then
        ((if u < probOneOf state target then 1 else 0 : Nat),
         (List.range state.length).map (fun i =>
           if (if Nat.testBit i target then 1 else 0) =
               (if u < probOneOf state target then (1 : Nat) else 0) then
             state.getD i 0 *
               ((1 / Real.sqrt (probOfOutcome state target
                   (if u < probOneOf state target then 1 else 0)) : ℝ) : ℂ)
           else 0))
      else ((if u < probOneOf state target then 1 else 0 : Nat), state)) := rfl
  by_cases hu : u < probOneOf state target
  · have hprob : (0 : ℝ) < probOneOf state target := lt_of_le_of_lt h0 hu
    have hp : probOfOutcome state target 1 = probOneOf state target := by
      rw [probOfOutcome, if_pos rfl]
    simp only [hunfold, if_pos hu, hp, if_pos hprob]
    refine ⟨by simp, ?_, ?_⟩
    · intro hzero
      exact absurd hzero (ne_of_gt hprob)
    · intro _
      simp
  · have hle : probOneOf state target ≤ u := le_of_not_lt hu
    have hprob : (0 : ℝ) < 1 - probOneOf state target := by
      have : probOneOf state target < 1 := lt_of_le_of_lt hle h1
      linarith
    have hp : probOfOutcome state target 0 = 1 - probOneOf state target := by
      rw [probOfOutcome, if_neg (by decide)]
    simp only [hunfold, if_neg hu, hp, if_pos hprob]
    refine ⟨by simp, ?_, ?_⟩
    · intro hzero
      exact absurd hzero (ne_of_gt hprob)
    · intro _
      simp

/-- Witness for C10 at the concrete state `[1, 0]`, target qubit 0 and
draw `u = 0`. -/
theorem C10_measure_witness :
    ((simMeasure [1, 0] 0 0).1 = 0 ∨ (simMeasure [1, 0] 0 0).1 = 1) ∧
    (probOfOutcome [1, 0] 0 (simMeasure [1, 0] 0 0).1 = 0 →
      (simMeasure [1, 0] 0 0).2 = [1, 0]) ∧
    (probOfOutcome [1, 0] 0 (simMeasure [1, 0] 0 0).1 ≠ 0 →
      (simMeasure [1, 0] 0 0).2 =
        (List.range ([1, 0] : List ℂ).length).map fun i =>
          if (if Nat.testBit i 0 then 1 else 0) = (simMeasure [1, 0] 0 0).1 then
            ([1, 0] : List ℂ).getD i 0 *
              ((1 / Real.sqrt (probOfOutcome [1, 0] 0 (simMeasure [1, 0] 0 0).1) : ℝ) : ℂ)
          else 0) :=
  C10_measure_outcome_and_renormalization [1, 0] 0 0 (le_refl 0) zero_lt_one

end SimulatorTheorems

section AnalyzerTheorems

theorem scopeGet_scopeSet_self (scope : List (String × Symbol)) (n : String) (v : Symbol) :
    scopeGet (scopeSet scope n v) n = some v := by
  induction scope with
  | nil => simp [scopeSet, scopeGet]
  | cons p rest ih =>
    by_cases h : p.1 = n
    · simp [scopeSet, scopeGet, h]
    · cases p
      simp_all [scopeSet, scopeGet, h]

theorem insertSym_fresh (t : SymbolTable) (sym : Symbol) (top : List (String × Symbol))
    (htop : t.scopes.getLast? = some top) (hfresh : scopeGet top sym.name = none) :
    t.insertSym sym = (⟨t.scopes.dropLast ++ [scopeSet top sym.name sym]⟩, true) := by
  rw [SymbolTable.insertSym, htop]
  simp [hfresh]

theorem lookupSym_last_scope (scopes : List (List (String × Symbol)))
    (scope : List (String × Symbol)) (n : String) (sym : Symbol)
    (hget : scopeGet scope n = some sym) :
    SymbolTable.lookupSym ⟨scopes ++ [scope]⟩ n = some sym := by
  rw [SymbolTable.lookupSym]
  simp only [List.reverse_append, List.reverse_cons, List.reverse_nil, List.nil_append,
    List.singleton_append]
  rw [SymbolTable.lookupSym.go, hget]

theorem bitLengthMsg_ne_mutableMsg (l n : Nat) :
    bitLengthMsg l n ≠ "Quantum registers cannot be mutable" := by
  intro h
  have hh := congrArg (fun s => s.data.head?) h
  simp [bitLengthMsg, String.data_append] at hh

/-- C8: for a `let`-declared quantum register of size `N` initialized with a
qubit bit-string literal, `analyze_qreg_declaration` reports the bit-string
length error exactly when the literal's bit count differs from `N`; when they
agree, the only possible new diagnostic is the mutability one, and the
register is entered in the symbol table as an immutable, defined `Qreg N`. -/
theorem C8_qreg_bitstring_length_check (st : AnalyzerSt) (name : String)
    (size : Nat) (bits : List Nat) (mutable : Bool) (span : ASpan)
    (top : List (String × Symbol))
    (htop : st.symbolTable.scopes.getLast? = some top)
    (hfresh : scopeGet top name = none) :
    (analyzeQregDeclaration st name size (.litQubit bits) mutable span).errors =
      st.errors ++
        (if mutable then
          [{ message := "Quantum registers cannot be mutable", span := span,
             hint := some "Remove \x27mut\x27 keyword from qreg declaration" }]
         else []) ++
        (if bits.length ≠ size then
          [{ message := bitLengthMsg bits.length size, span := span,
             hint := some "Bit string must have same length as qreg size" }]
         else []) ∧
    (analyzeQregDeclaration st name size (.litQubit bits) mutable span).symbolTable.lookupSym
        name = some (Symbol.variableS name (.qreg size) false true) ∧
    (({ message := bitLengthMsg bits.length size, span := span,
        hint := some "Bit string must have same length as qreg size" } : SemanticError) ∈
        (analyzeQregDeclaration st name size (.litQubit bits) mutable span).errors.drop
          st.errors.length
      ↔ bits.length ≠ size) := by
  have hins : st.symbolTable.insertSym (Symbol.variableS name (.qreg size) false true) =
      (⟨st.symbolTable.scopes.dropLast ++
          [scopeSet top name (Symbol.variableS name (.qreg size) false true)]⟩, true) :=
    insertSym_fresh st.symbolTable _ top htop hfresh
  have hlook : SymbolTable.lookupSym
      ⟨st.symbolTable.scopes.dropLast ++
        [scopeSet top name (Symbol.variableS name (.qreg size) false true)]⟩ name =
      some (Symbol.variableS name (.qreg size) false true) :=
    lookupSym_last_scope _ _ _ _ (scopeGet_scopeSet_self top name _)
  have heq : analyzeQregDeclaration st name size (.litQubit bits) mutable span =
      { symbolTable :=
          ⟨st.symbolTable.scopes.dropLast ++
            [scopeSet top name (Symbol.variableS name (.qreg size) false true)]⟩,
        errors := st.errors ++
          (if mutable then
            [{ message := "Quantum registers cannot be mutable", span := span,
               hint := some "Remove \x27mut\x27 keyword from qreg declaration" }]
           else []) ++
          (if bits.length ≠ size then
            [{ message := bitLengthMsg bits.length size, span := span,
               hint := some "Bit string must have same length as qreg size" }]
           else []) } := by
    cases mutable <;> by_cases hlen : bits.length = size <;>
      simp_all [analyzeQregDeclaration, pushSemErr, hins]
  rw [heq]
  refine ⟨rfl, hlook, ?_⟩
  simp only [List.append_assoc, List.drop_left']
  by_cases hlen : bits.length = size
  · simp only [hlen, ne_eq, not_true_eq_false, if_false]
    constructor
    · intro hmem
      rw [List.append_nil] at hmem
      cases hmut : mutable
      · rw [hmut] at hmem
        simp at hmem
      · rw [hmut] at hmem
        simp only [if_true, List.mem_singleton] at hmem
        have := congrArg SemanticError.message hmem
        simp only at this
        exact absurd this (bitLengthMsg_ne_mutableMsg _ _)
    · intro h
      exact h.elim
  · simp [hlen]

/-- Witness for C8 at a fresh table, register `q` of size 3 and the matching
bit string `|101⟩`. -/
theorem C8_qreg_witness :
    (analyzeQregDeclaration ⟨SymbolTable.new, []⟩ "q" 3 (.litQubit [1, 0, 1]) false
        ⟨1, 1, 0, 0⟩).errors = [] ∧
    (analyzeQregDeclaration ⟨SymbolTable.new, []⟩ "q" 3 (.litQubit [1, 0, 1]) false
        ⟨1, 1, 0, 0⟩).symbolTable.lookupSym "q" =
      some (Symbol.variableS "q" (.qreg 3) false true) := by
  have h := C8_qreg_bitstring_length_check ⟨SymbolTable.new, []⟩ "q" 3 [1, 0, 1] false
    ⟨1, 1, 0, 0⟩ [] rfl rfl
  exact ⟨by simpa using h.1, h.2.1⟩

end AnalyzerTheorems

section BuilderEvaluationTheorems

/-- C1 (failing-input evaluation): lowering the S1 program
`fn main() -> int { qubit q = |0>; q = H(q); cbit r = measure(q); return 0; }`
produces a QIR module whose only ops are the qubit allocation and the return:
`build_assign_stmt` ignores `q = H(q)` (its target has no `[`), and
`build_measure_expr` emits nothing for `measure(q)` on a plain variable, so
the module reports 0 gates, 0 measurements and 0 qubits instead of the
claimed body `h q[0]; measure q[0] -> c[0];` with stats 1/1/1/1. -/
theorem C1_s1_lowering_has_no_gate_and_no_measure :
    ((s1Module.functions.flatMap (·.blocks)).flatMap (·.ops)) =
      [QirOp.allocQubit 0 (some .Zero), QirOp.ret (some (.int 0))] ∧
    s1Module.gateCount = 0 ∧
    s1Module.measurementCount = 0 ∧
    s1Module.qubitCount = 0 := by
  refine ⟨?_, ?_, ?_, ?_⟩ <;>
    simp [s1Module, buildProgramModule, buildFunction, buildStmts, buildStmt, buildLetStmt,
      buildAssignStmt, buildExprVal, buildMeasureExpr, buildReturnStmt, buildGateArgs,
      QirModule.gateCount, QirModule.measurementCount, QirModule.qubitCount,
      QirModule.new, QirModule.addFunction, QirFunction.new,
      QirFunction.addOp, addOp, symGet, symSet, findCharIdx, s1Main, qirGateFromAstGate,
      firstQubitOf, convertType, isApplyGate, isMeasureOp]

end BuilderEvaluationTheorems

section BuilderInvariantTheorems

theorem appendOps_nil (f : QirFunction) : f.appendOps [] = f := by
  have hmap : (f.blocks.map fun b =>
      if b.id = f.currentBlock then { b with ops := b.ops ++ [] } else b) = f.blocks := by
    have hfun : (fun (b : QirBlock) =>
        if b.id = f.currentBlock then { b with ops := b.ops ++ [] } else b) = id := by
      funext b
      by_cases h : b.id = f.currentBlock
      · cases b
        simp_all
      · simp [h]
    rw [hfun, List.map_id]
  rw [QirFunction.appendOps, hmap]

theorem addOp_eq_appendOps (f : QirFunction) (op : QirOp) :
    f.addOp op = f.appendOps [op] := rfl

theorem appendOps_appendOps (f : QirFunction) (l1 l2 : List QirOp) :
    (f.appendOps l1).appendOps l2 = f.appendOps (l1 ++ l2) := by
  simp only [QirFunction.appendOps, List.map_map]
  have hfun : ((fun (b : QirBlock) =>
        if b.id = f.currentBlock then { b with ops := b.ops ++ l2 } else b) ∘
      (fun (b : QirBlock) =>
        if b.id = f.currentBlock then { b with ops := b.ops ++ l1 } else b)) =
      fun (b : QirBlock) =>
        if b.id = f.currentBlock then { b with ops := b.ops ++ (l1 ++ l2) } else b := by
    funext b
    by_cases h : b.id = f.currentBlock <;> simp [Function.comp, h]
  rw [hfun]

theorem BStep_refl (st : BuildSt) : BStep st st :=
  ⟨[], (appendOps_nil st.fn).symm⟩

theorem BStep_of_fn_eq {st r : BuildSt} (h : r.fn = st.fn) : BStep st r :=
  ⟨[], by rw [h, appendOps_nil]⟩

theorem BStep_trans {a b c : BuildSt} (h1 : BStep a b) (h2 : BStep b c) : BStep a c := by
  obtain ⟨l1, e1⟩ := h1
  obtain ⟨l2, e2⟩ := h2
  exact ⟨l1 ++ l2, by rw [e2, e1, appendOps_appendOps]⟩

theorem BStep_addOp (st : BuildSt) (op : QirOp) : BStep st (addOp st op) :=
  ⟨[op], rfl⟩

theorem BStep_addOp_of (st mid : BuildSt) (op : QirOp) (h : mid.fn = st.fn) :
    BStep st (addOp mid op) :=
  BStep_trans (BStep_of_fn_eq h) (BStep_addOp mid op)

theorem buildMeasureExpr_bstep (st : BuildSt) (e : BExpr) :
    BStep st (buildMeasureExpr st e).1 := by
  rw [buildMeasureExpr.eq_def]
  repeat' split
  all_goals first
    | exact BStep_refl st
    | exact BStep_addOp_of st _ _ rfl

theorem buildQregAllocs_bstep (k : Nat) :
    ∀ (st : BuildSt) (bits : Option (List Nat)) (i : Nat),
      BStep st (buildQregAllocs st bits i k) := by
  induction k with
  | zero =>
    intro st bits i
    simp only [buildQregAllocs]
    exact BStep_refl st
  | succ r ih =>
    intro st bits i
    simp only [buildQregAllocs]
    exact BStep_trans (BStep_addOp_of st _ _ rfl) (ih _ bits (i + 1))

end BuilderInvariantTheorems

section BuilderExprInvariant

theorem buildExpr_bstep_aux (n : Nat) :
    (∀ e : BExpr, sizeOf e < n → ∀ st, BStep st (buildExprVal st e).1) ∧
    (∀ args : List BExpr, sizeOf args < n → ∀ st, BStep st (buildGateArgs st args).1) ∧
    (∀ es : List BExpr, sizeOf es < n → ∀ st, BStep st (buildExprList st es).1) := by
  induction n using Nat.strong_induction_on with
  | _ n ih =>
  refine ⟨?_, ?_, ?_⟩
  · intro e he st
    match e with
    | .litInt m =>
      simp only [buildExprVal]
      exact BStep_refl st
    | .litFloat f =>
      simp only [buildExprVal]
      exact BStep_refl st
    | .litBool b =>
      simp only [buildExprVal]
      exact BStep_refl st
    | .litStr s =>
      simp only [buildExprVal]
      exact BStep_refl st
    | .litQubit bits =>
      simp only [buildExprVal]
      exact BStep_addOp_of st _ _ rfl
    | .var name =>
      simp only [buildExprVal]
      split <;> exact BStep_refl st
    | .binOp lhs op rhs =>
      have h1 : sizeOf lhs < sizeOf (BExpr.binOp lhs op rhs) := by simp <;> omega
      have h2 : sizeOf rhs < sizeOf (BExpr.binOp lhs op rhs) := by simp <;> omega
      simp only [buildExprVal]
      rcases e1 : buildExprVal st lhs with ⟨st1, v1⟩
      rcases e2 : buildExprVal st1 rhs with ⟨st2, v2⟩
      simp only [e1, e2]
      have b1 := (ih (sizeOf (BExpr.binOp lhs op rhs)) he).1 lhs h1 st
      rw [e1] at b1
      have b2 := (ih (sizeOf (BExpr.binOp lhs op rhs)) he).1 rhs h2 st1
      rw [e2] at b2
      exact BStep_trans (BStep_trans b1 b2) (BStep_addOp_of st2 _ _ rfl)
    | .unOp op operand =>
      have h1 : sizeOf operand < sizeOf (BExpr.unOp op operand) := by simp <;> omega
      simp only [buildExprVal]
      rcases e1 : buildExprVal st operand with ⟨st1, v1⟩
      simp only [e1]
      have b1 := (ih (sizeOf (BExpr.unOp op operand)) he).1 operand h1 st
      rw [e1] at b1
      exact BStep_trans b1 (BStep_addOp_of st1 _ _ rfl)
    | .call name args =>
      rw [buildExprVal.eq_def]
      simp only
      by_cases hr : name = "range"
      · simp only [hr, if_true]
        match args with
        | [] => exact BStep_refl st
        | [a0] => exact BStep_refl st
        | a0 :: a1 :: rest =>
          have h0 : sizeOf a0 < sizeOf (BExpr.call name (a0 :: a1 :: rest)) := by simp <;> omega
          have h1 : sizeOf a1 < sizeOf (BExpr.call name (a0 :: a1 :: rest)) := by simp <;> omega
          rcases e0 : buildExprVal st a0 with ⟨st1, v0⟩
          rcases e1 : buildExprVal st1 a1 with ⟨st2, v1⟩
          simp only [e0, e1]
          have b0 := (ih (sizeOf (BExpr.call name (a0 :: a1 :: rest))) he).1 a0 h0 st
          rw [e0] at b0
          have b1 := (ih (sizeOf (BExpr.call name (a0 :: a1 :: rest))) he).1 a1 h1 st1
          rw [e1] at b1
          exact BStep_trans b0 b1
      · simp only [hr, if_false]
        by_cases hm : name = "measure"
        · simp only [hm, if_true]
          match args with
          | [] => exact BStep_refl st
          | a :: rest => exact buildMeasureExpr_bstep st a
        · simp only [hm, if_false]
          exact BStep_refl st
    | .measure qe =>
      simp only [buildExprVal]
      exact buildMeasureExpr_bstep st qe
    | .gateApply gate args =>
      have h1 : sizeOf args < sizeOf (BExpr.gateApply gate args) := by simp <;> omega
      simp only [buildExprVal]
      rcases e1 : buildGateArgs st args with ⟨st1, vals⟩
      simp only [e1]
      have b1 := (ih (sizeOf (BExpr.gateApply gate args)) he).2.1 args h1 st
      rw [e1] at b1
      split
      · split
        · exact BStep_trans b1 (BStep_addOp_of st1 _ _ rfl)
        · exact BStep_trans b1 (BStep_addOp_of st1 _ _ rfl)
      · exact b1
    | .index arrExpr idxExpr =>
      have h1 : sizeOf arrExpr < sizeOf (BExpr.index arrExpr idxExpr) := by simp <;> omega
      have h2 : sizeOf idxExpr < sizeOf (BExpr.index arrExpr idxExpr) := by simp <;> omega
      simp only [buildExprVal]
      rcases e1 : buildExprVal st arrExpr with ⟨st1, v1⟩
      rcases e2 : buildExprVal st1 idxExpr with ⟨st2, v2⟩
      simp only [e1, e2]
      have b1 := (ih (sizeOf (BExpr.index arrExpr idxExpr))  he).1 arrExpr h1 st
      rw [e1] at b1
      have b2 := (ih (sizeOf (BExpr.index arrExpr idxExpr)) he).1 idxExpr h2 st1
      rw [e2] at b2
      have b12 := BStep_trans b1 b2
      split
      · split
        · split <;> exact b12
        · exact b12
      · exact b12
    | .memberAccess base field =>
      simp only [buildExprVal]
      exact BStep_refl st
    | .tuple elements =>
      have h1 : sizeOf elements < sizeOf (BExpr.tuple elements) := by simp <;> omega
      simp only [buildExprVal]
      rcases e1 : buildExprList st elements with ⟨st1, vals⟩
      simp only [e1]
      have b1 := (ih (sizeOf (BExpr.tuple elements)) he).2.2 elements h1 st
      rw [e1] at b1
      exact b1
    | .structLit name fields =>
      simp only [buildExprVal]
      exact BStep_refl st
  · intro args ha st
    match args with
    | [] =>
      simp only [buildGateArgs]
      exact BStep_refl st
    | arg :: rest =>
      have hr : sizeOf rest < sizeOf (arg :: rest) := by simp <;> omega
      have hA : sizeOf arg < sizeOf (arg :: rest) := by simp <;> omega
      simp only [buildGateArgs]
      split
      · -- skipped argument (`continue`)
        exact (ih (sizeOf (arg :: rest)) ha).2.1 rest hr st
      · -- value read straight from the symbol table
        rcases e1 : buildGateArgs st rest with ⟨st1, vs⟩
        simp only [e1]
        have b1 := (ih (sizeOf (arg :: rest)) ha).2.1 rest hr st
        rw [e1] at b1
        exact b1
      · -- fallback: build the argument, then the remaining ones
        rcases e1 : buildExprVal st arg with ⟨st1, v⟩
        rcases e2 : buildGateArgs st1 rest with ⟨st2, vs⟩
        simp only [e1, e2]
        have b1 := (ih (sizeOf (arg :: rest)) ha).1 arg hA st
        rw [e1] at b1
        have b2 := (ih (sizeOf (arg :: rest)) ha).2.1 rest hr st1
        rw [e2] at b2
        exact BStep_trans b1 b2
  · intro es hs st
    match es with
    | [] =>
      simp only [buildExprList]
      exact BStep_refl st
    | e :: rest =>
      have hA : sizeOf e < sizeOf (e :: rest) := by simp <;> omega
      have hr : sizeOf rest < sizeOf (e :: rest) := by simp <;> omega
      simp only [buildExprList]
      rcases e1 : buildExprVal st e with ⟨st1, v⟩
      rcases e2 : buildExprList st1 rest with ⟨st2, vs⟩
      simp only [e1, e2]
      have b1 := (ih (sizeOf (e :: rest)) hs).1 e hA st
      rw [e1] at b1
      have b2 := (ih (sizeOf (e :: rest)) hs).2.2 rest hr st1
      rw [e2] at b2
      exact BStep_trans b1 b2

theorem buildExprVal_bstep (st : BuildSt) (e : BExpr) : BStep st (buildExprVal st e).1 :=
  (buildExpr_bstep_aux (sizeOf e + 1)).1 e (by omega) st

theorem buildGateArgs_bstep (st : BuildSt) (args : List BExpr) :
    BStep st (buildGateArgs st args).1 :=
  (buildExpr_bstep_aux (sizeOf args + 1)).2.1 args (by omega) st

theorem buildExprList_bstep (st : BuildSt) (es : List BExpr) :
    BStep st (buildExprList st es).1 :=
  (buildExpr_bstep_aux (sizeOf es + 1)).2.2 es (by omega) st

end BuilderExprInvariant

section BuilderStmtInvariant

theorem buildAssignStmt_bstep (st : BuildSt) (name : String) (e : BExpr) :
    BStep st (buildAssignStmt st name e) := by
  rcases e1 : buildExprVal st e with ⟨st1, v⟩
  have b1 := buildExprVal_bstep st e
  rw [e1] at b1
  rw [buildAssignStmt.eq_def]
  simp only [e1]
  repeat' split
  all_goals first
    | exact BStep_refl st
    | exact b1
    | exact BStep_trans b1 (BStep_of_fn_eq rfl)

theorem buildLetStmt_bstep (st : BuildSt) (name : String) (ty : BTy) (e : BExpr) :
    BStep st (buildLetStmt st name ty e) := by
  rcases e1 : buildExprVal st e with ⟨st1, v⟩
  have b1 := buildExprVal_bstep st e
  rw [e1] at b1
  rw [buildLetStmt.eq_def]
  simp only [e1]
  repeat' split
  all_goals first
    | exact BStep_refl st
    | exact b1
    | exact BStep_trans b1 (BStep_of_fn_eq rfl)
    | exact BStep_trans (buildQregAllocs_bstep _ st _ 0) (BStep_of_fn_eq rfl)

theorem buildReturnStmt_bstep (st : BuildSt) (e : Option BExpr) :
    BStep st (buildReturnStmt st e) := by
  rw [buildReturnStmt.eq_def]
  cases e with
  | none =>
    exact BStep_addOp st _
  | some e0 =>
    rcases e1 : buildExprVal st e0 with ⟨st1, v⟩
    simp only [e1]
    have b1 := buildExprVal_bstep st e0
    rw [e1] at b1
    split <;> exact BStep_trans b1 (BStep_addOp st1 _)

end BuilderStmtInvariant

section BuilderStmtInduction

theorem buildStmt_bstep_aux (n : Nat) :
    (∀ s : BStmt, sizeOf s < n → ∀ st, BStep st (buildStmt st s)) ∧
    (∀ l : List BStmt, sizeOf l < n → ∀ st, BStep st (buildStmts st l)) := by
  induction n using Nat.strong_induction_on with
  | _ n ih =>
  refine ⟨?_, ?_⟩
  · intro s hs st
    match s with
    | .exprS e =>
      rw [buildStmt.eq_def]
      simp only
      exact buildExprVal_bstep st e
    | .letDecl name ty e m =>
      rw [buildStmt.eq_def]
      simp only
      exact buildLetStmt_bstep st name ty e
    | .assign name e =>
      rw [buildStmt.eq_def]
      simp only
      exact buildAssignStmt_bstep st name e
    | .ret e =>
      rw [buildStmt.eq_def]
      simp only
      exact buildReturnStmt_bstep st e
    | .block stmts =>
      have h1 : sizeOf stmts < sizeOf (BStmt.block stmts) := by simp
      rw [buildStmt.eq_def]
      simp only
      exact (ih (sizeOf (BStmt.block stmts)) hs).2 stmts h1 st
    | .ifS cond thenBr elseBr =>
      have h1 : sizeOf thenBr < sizeOf (BStmt.ifS cond thenBr elseBr) := by simp <;> omega
      rw [buildStmt.eq_def]
      simp only
      have b1 := (ih (sizeOf (BStmt.ifS cond thenBr elseBr)) hs).1 thenBr h1 st
      cases elseBr with
      | none => exact b1
      | some br =>
        have h2 : sizeOf br < sizeOf (BStmt.ifS cond thenBr (some br)) := by simp <;> omega
        have b2 := (ih (sizeOf (BStmt.ifS cond thenBr (some br))) hs).1 br h2
          (buildStmt st thenBr)
        exact BStep_trans b1 b2
    | .whileS cond body =>
      have h1 : sizeOf body < sizeOf (BStmt.whileS cond body) := by simp <;> omega
      rw [buildStmt.eq_def]
      simp only
      rcases e1 : buildExprVal st cond with ⟨st1, v⟩
      simp only [e1]
      have b0 := buildExprVal_bstep st cond
      rw [e1] at b0
      have b1 := (ih (sizeOf (BStmt.whileS cond body)) hs).1 body h1 st1
      exact BStep_trans b0 b1
    | .forRange v start stop step body =>
      have hbody : sizeOf body < sizeOf (BStmt.forRange v start stop step body) := by
        simp <;> omega
      rw [buildStmt.eq_def]
      simp only
      rcases e1 : buildExprVal st start with ⟨st1, v1⟩
      rcases e2 : buildExprVal st1 stop with ⟨st2, v2⟩
      simp only [e1, e2]
      have b1 := buildExprVal_bstep st start
      rw [e1] at b1
      have b2 := buildExprVal_bstep st1 stop
      rw [e2] at b2
      have b12 := BStep_trans b1 b2
      have hiter : ∀ (k : Nat) (i : Int) (st0 : BuildSt),
          BStep st0 (buildIterate st0 v i k body) := by
        intro k
        induction k with
        | zero =>
          intro i st0
          simp only [buildIterate]
          exact BStep_refl st0
        | succ m ihk =>
          intro i st0
          simp only [buildIterate]
          have bb := (ih (sizeOf (BStmt.forRange v start stop step body)) hs).1 body hbody
            { st0 with symbolTable := symSet st0.symbolTable v (.int, .int i) }
          exact BStep_trans (BStep_trans (BStep_of_fn_eq rfl) bb) (ihk (i + 1) _)
      split
      · exact BStep_trans b12 (hiter _ _ st2)
      · exact b12
    | .breakS =>
      rw [buildStmt.eq_def]
      simp only
      exact BStep_refl st
    | .continueS =>
      rw [buildStmt.eq_def]
      simp only
      exact BStep_refl st
    | .qif cond thenBr elseBr =>
      rw [buildStmt.eq_def]
      simp only
      exact BStep_refl st
    | .qfor v a b c body =>
      rw [buildStmt.eq_def]
      simp only
      exact BStep_refl st
    | .typeAliasS =>
      rw [buildStmt.eq_def]
      simp only
      exact BStep_refl st
    | .structDefS =>
      rw [buildStmt.eq_def]
      simp only
      exact BStep_refl st
  · intro l hl st
    match l with
    | [] =>
      simp only [buildStmts]
      exact BStep_refl st
    | s :: rest =>
      have h1 : sizeOf s < sizeOf (s :: rest) := by simp <;> omega
      have h2 : sizeOf rest < sizeOf (s :: rest) := by simp <;> omega
      simp only [buildStmts]
      have b1 := (ih (sizeOf (s :: rest)) hl).1 s h1 st
      have b2 := (ih (sizeOf (s :: rest)) hl).2 rest h2 (buildStmt st s)
      exact BStep_trans b1 b2

theorem buildStmt_bstep (st : BuildSt) (s : BStmt) : BStep st (buildStmt st s) :=
  (buildStmt_bstep_aux (sizeOf s + 1)).1 s (by omega) st

theorem buildStmts_bstep (st : BuildSt) (l : List BStmt) : BStep st (buildStmts st l) :=
  (buildStmt_bstep_aux (sizeOf l + 1)).2 l (by omega) st

theorem buildStmts_append (st : BuildSt) (l1 l2 : List BStmt) :
    buildStmts st (l1 ++ l2) = buildStmts (buildStmts st l1) l2 := by
  induction l1 generalizing st with
  | nil => simp only [buildStmts, List.nil_append]
  | cons s rest ihl =>
    simp only [List.cons_append]
    rw [buildStmts, buildStmts]
    exact ihl (buildStmt st s)

end BuilderStmtInduction

section C4Theorems

theorem flatOps_new_appendOps (name : String) (params : List QirParam) (rt : QirType)
    (L : List QirOp) :
    (((QirFunction.new name params rt).appendOps L).blocks.flatMap (·.ops)) = L := by
  simp [QirFunction.new, QirFunction.appendOps]

theorem buildReturnStmt_appends (st : BuildSt) (e : Option BExpr) :
    ∃ l v, (buildReturnStmt st e).fn = st.fn.appendOps (l ++ [QirOp.ret v]) := by
  rw [buildReturnStmt.eq_def]
  cases e with
  | none => exact ⟨[], none, rfl⟩
  | some e0 =>
    rcases e1 : buildExprVal st e0 with ⟨st2, v⟩
    simp only [e1]
    have b := buildExprVal_bstep st e0
    rw [e1] at b
    obtain ⟨l2, hl2⟩ := b
    split
    · refine ⟨l2, none, ?_⟩
      show (st2.fn.addOp (QirOp.ret none)) = st.fn.appendOps (l2 ++ [QirOp.ret none])
      rw [addOp_eq_appendOps, hl2, appendOps_appendOps]
    · refine ⟨l2, some v, ?_⟩
      show (st2.fn.addOp (QirOp.ret (some v))) = st.fn.appendOps (l2 ++ [QirOp.ret (some v)])
      rw [addOp_eq_appendOps, hl2, appendOps_appendOps]

/-- C4 (corrected): `build_function` appends no implicit terminator; what is
true is that a function whose AST body ends in an explicit `Return`
statement ends in a `Return` op, because `build_return_stmt` emits it last. -/
theorem C4_amended_explicit_return_terminates (f : BFunction) (pre : List BStmt)
    (e : Option BExpr) (hbody : f.body = pre ++ [BStmt.ret e]) :
    ∃ v, ((buildFunction f).blocks.flatMap (·.ops)).getLast? = some (QirOp.ret v) := by
  rw [buildFunction]
  simp only [hbody]
  set st0 : BuildSt :=
    { symbolTable := [], qubitCounter := 0, cbitCounter := 0, tempCounter := 0,
      fn := QirFunction.new f.name
        (f.params.map fun p => { name := p.name, ty := convertType p.ty, mutable := p.mutable })
        (convertType f.returnType) } with hst0
  rw [buildStmts_append]
  have hsingle : buildStmts (buildStmts st0 pre) [BStmt.ret e] =
      buildReturnStmt (buildStmts st0 pre) e := by
    rw [buildStmts, buildStmts]
    rw [buildStmt.eq_def]
  rw [hsingle]
  obtain ⟨l1, h1⟩ := buildStmts_bstep st0 pre
  obtain ⟨l2, v, h2⟩ := buildReturnStmt_appends (buildStmts st0 pre) e
  refine ⟨v, ?_⟩
  rw [h2, h1, appendOps_appendOps]
  have : st0.fn = QirFunction.new f.name
      (f.params.map fun p => { name := p.name, ty := convertType p.ty, mutable := p.mutable })
      (convertType f.returnType) := rfl
  rw [this, flatOps_new_appendOps]
  rw [← List.append_assoc]
  exact List.getLast?_concat _

/-- Witness for the amended C4 at a one-statement body `return 0;`. -/
theorem C4_amended_witness :
    ∃ v, ((buildFunction
        (BFunction.mk "main" [] BTy.int [BStmt.ret (some (BExpr.litInt 0))])).blocks.flatMap
          (·.ops)).getLast? =
      some (QirOp.ret v) :=
  C4_amended_explicit_return_terminates _ [] (some (BExpr.litInt 0)) rfl

/-- Counterexample to C4 as stated: the built form of
`fn main() -> int { qubit q = |0>; }` has a last op (`AllocQubit`) that is
not a terminator, and no implicit `Return` is appended. -/
theorem C4_counterexample_no_implicit_return :
    ((buildFunction leakMain).blocks.flatMap (·.ops)).getLast? =
      some (QirOp.allocQubit 0 (some .Zero)) ∧
    ∀ b ∈ (buildFunction leakMain).blocks, b.isTerminated = false := by
  have hblocks : (buildFunction leakMain).blocks =
      [{ id := 0, ops := [QirOp.allocQubit 0 (some .Zero)], predecessors := [],
         successors := [], liveQubits := ∅, liveCbits := ∅ }] := by
    simp [buildFunction, leakMain, buildStmts, buildStmt, buildLetStmt, buildExprVal,
      QirFunction.new, QirFunction.addOp, addOp, convertType, symSet]
  constructor
  · rw [hblocks]
    rfl
  · intro b hb
    rw [hblocks] at hb
    simp only [List.mem_singleton] at hb
    subst hb
    rfl

end C4Theorems

section GateCancellationTheorems

theorem cancelAt_oob (ops : List QirOp) (j : Nat) (h : ops.length ≤ j + 1) :
    cancelAt ops j = false := by
  have hnone : ops[j + 1]? = none := List.getElem?_eq_none h
  rw [cancelAt, hnone]
  split
  · rename_i heq
    simp at heq
  · rfl

theorem gcScan_length_le (ops : List QirOp) (i : Nat) :
    (gcScan ops i).length ≤ ops.length := by
  induction ops, i using gcScan.induct with
  | case1 ops i h h2 hc ih =>
    rw [gcScan]
    simp only [dif_pos h, dif_pos h2, if_pos hc]
    have e1 : (ops.eraseIdx (i + 1)).length = ops.length - 1 := by
      rw [List.length_eraseIdx, if_pos h2]
    have e2 : ((ops.eraseIdx (i + 1)).eraseIdx i).length = (ops.eraseIdx (i + 1)).length - 1 := by
      rw [List.length_eraseIdx, if_pos (by omega)]
    omega
  | case2 ops i h h2 hc ih =>
    rw [gcScan]
    simp only [dif_pos h, dif_pos h2, if_neg hc]
    exact ih
  | case3 ops i h h2 ih =>
    rw [gcScan]
    simp only [dif_pos h, dif_neg h2]
    exact ih
  | case4 ops i h =>
    rw [gcScan]
    simp only [dif_neg h]
    exact le_refl _

theorem gcScan_fixpoint_no_cancel (ops : List QirOp) (i : Nat)
    (hfix : gcScan ops i = ops) : ∀ j, i ≤ j → cancelAt ops j = false := by
  induction ops, i using gcScan.induct with
  | case1 ops i h h2 hc ih =>
    exfalso
    rw [gcScan] at hfix
    simp only [dif_pos h, dif_pos h2, if_pos hc] at hfix
    have hlen := gcScan_length_le ((ops.eraseIdx (i + 1)).eraseIdx i) i
    rw [hfix] at hlen
    have e1 : (ops.eraseIdx (i + 1)).length = ops.length - 1 := by
      rw [List.length_eraseIdx, if_pos h2]
    have e2 : ((ops.eraseIdx (i + 1)).eraseIdx i).length = (ops.eraseIdx (i + 1)).length - 1 := by
      rw [List.length_eraseIdx, if_pos (by omega)]
    omega
  | case2 ops i h h2 hc ih =>
    rw [gcScan] at hfix
    simp only [dif_pos h, dif_pos h2, if_neg hc] at hfix
    intro j hj
    rcases Nat.eq_or_lt_of_le hj with hj' | hj'
    · subst hj'
      simpa using hc
    · exact ih hfix j hj'
  | case3 ops i h h2 ih =>
    intro j hj
    exact cancelAt_oob ops j (by omega)
  | case4 ops i h =>
    intro j hj
    exact cancelAt_oob ops j (by omega)

/-- C5 (corrected): the rescan-from-the-same-index strategy removes every
cancelling pair it ever visits, so a block the pass leaves unchanged contains
no two adjacent mutually-inverse `ApplyGate` ops with identical arguments;
but a deletion can join the ops on either side of the deleted pair into a new
cancelling pair at a smaller index, which the pass never revisits. -/
theorem C5_amended_unchanged_block_has_no_pair (ops : List QirOp) (j : Nat)
    (hfix : gcScan ops 0 = ops) : cancelAt ops j = false :=
  gcScan_fixpoint_no_cancel ops 0 hfix j (Nat.zero_le j)

/-- Witness for the amended C5: `[S q0, H q0]` is untouched by the pass and
indeed contains no cancelling adjacent pair. -/
theorem C5_amended_witness :
    cancelAt [QirOp.applyGate .S [.qubit 0] (some 0),
      QirOp.applyGate .H [.qubit 0] (some 1)] 0 = false :=
  C5_amended_unchanged_block_has_no_pair _ 0 (by
    simp [gcScan, cancelAt, gatesCancel, qirValueListEq, qirValueEq])

/-- Counterexample to C5 as stated: running gate cancellation on the block
`S q0; X q0; X q0; S† q0` deletes the inner `X; X` pair and leaves
`S q0; S† q0` — two adjacent mutually-inverse gates with identical argument
lists. -/
theorem C5_counterexample_pair_survives :
    (gateCancellation (singleBlockFn c5Ops)).blocks.map (·.ops) =
      [[QirOp.applyGate .S [.qubit 0] (some 0), QirOp.applyGate .Sdg [.qubit 0] (some 3)]] ∧
    cancelAt [QirOp.applyGate .S [.qubit 0] (some 0),
      QirOp.applyGate .Sdg [.qubit 0] (some 3)] 0 = true := by
  have hops : gcScan c5Ops 0 =
      [QirOp.applyGate .S [.qubit 0] (some 0), QirOp.applyGate .Sdg [.qubit 0] (some 3)] := by
    simp [gcScan, cancelAt, gatesCancel, qirValueListEq, qirValueEq, c5Ops, List.eraseIdx]
  constructor
  · simp only [gateCancellation, singleBlockFn, QirFunction.new, List.map_cons, List.map_nil]
    rw [hops]
  · rfl

end GateCancellationTheorems

section DeadQubitEliminationTheorems

theorem dqeSeedStep_subset (s : Finset ℕ) (op : QirOp) : s ⊆ dqeSeedStep s op := by
  unfold dqeSeedStep
  split
  · exact Finset.subset_insert _ _
  · exact Finset.subset_union_left
  · exact Finset.Subset.refl _

theorem foldl_dqeSeedStep_subset (l : List QirOp) (s : Finset ℕ) :
    s ⊆ l.foldl dqeSeedStep s := by
  induction l generalizing s with
  | nil => exact Finset.Subset.refl _
  | cons op rest ih => exact Finset.Subset.trans (dqeSeedStep_subset s op) (ih _)

theorem mem_foldl_dqeSeedStep_measure (l : List QirOp) (s : Finset ℕ) (q c : Nat)
    (h : QirOp.measure q c ∈ l) : q ∈ l.foldl dqeSeedStep s := by
  induction l generalizing s with
  | nil => exact absurd h (List.not_mem_nil _)
  | cons op rest ih =>
    rw [List.foldl_cons]
    rcases List.mem_cons.mp h with he | hm
    · have hq : q ∈ dqeSeedStep s op := by
        rw [← he]
        simp [dqeSeedStep]
      exact foldl_dqeSeedStep_subset rest _ hq
    · exact ih _ hm

theorem mem_foldl_dqeSeedStep_ret (l : List QirOp) (s : Finset ℕ) (v : QirValue)
    (h : QirOp.ret (some v) ∈ l) : collectQubits v ⊆ l.foldl dqeSeedStep s := by
  induction l generalizing s with
  | nil => exact absurd h (List.not_mem_nil _)
  | cons op rest ih =>
    rw [List.foldl_cons]
    rcases List.mem_cons.mp h with he | hm
    · have hq : collectQubits v ⊆ dqeSeedStep s op := by
        rw [← he]
        simp [dqeSeedStep]
      exact Finset.Subset.trans hq (foldl_dqeSeedStep_subset rest _)
    · exact ih _ hm

theorem dqeStep_subset (acc : Finset ℕ) (op : QirOp) : acc ⊆ dqeStep acc op := by
  cases op
  case applyGate g args r =>
    simp only [dqeStep]
    split
    · exact Finset.subset_union_left
    · exact Finset.Subset.refl _
  all_goals exact Finset.Subset.refl _

theorem foldl_dqeStep_subset (l : List QirOp) (acc : Finset ℕ) :
    acc ⊆ l.foldl dqeStep acc := by
  induction l generalizing acc with
  | nil => exact Finset.Subset.refl _
  | cons op rest ih => exact Finset.Subset.trans (dqeStep_subset acc op) (ih _)

theorem dqePass_subset (f : QirFunction) (live : Finset ℕ) : live ⊆ dqePass f live :=
  foldl_dqeStep_subset (qirAllOps f) live

theorem gqStep_acc (s : Finset ℕ) (op : QirOp) : gqStep s op = s ∪ gqStep ∅ op := by
  cases op <;> simp [gqStep]

theorem gqFold_acc (l : List QirOp) (s : Finset ℕ) :
    l.foldl gqStep s = s ∪ l.foldl gqStep ∅ := by
  induction l generalizing s with
  | nil => simp
  | cons op rest ih =>
    simp only [List.foldl_cons]
    rw [ih (gqStep s op), ih (gqStep ∅ op), gqStep_acc s op, Finset.union_assoc]

theorem dqeStep_subset_union (acc : Finset ℕ) (op : QirOp) :
    dqeStep acc op ⊆ acc ∪ gqStep ∅ op := by
  cases op
  case applyGate g args r =>
    simp only [dqeStep, gqStep]
    split
    · simp
    · exact Finset.subset_union_left
  all_goals exact Finset.subset_union_left

theorem foldl_dqeStep_bound (l : List QirOp) (acc : Finset ℕ) :
    l.foldl dqeStep acc ⊆ acc ∪ l.foldl gqStep ∅ := by
  induction l generalizing acc with
  | nil => simp
  | cons op rest ih =>
    simp only [List.foldl_cons]
    refine Finset.Subset.trans (ih (dqeStep acc op)) ?_
    rw [gqFold_acc rest (gqStep ∅ op)]
    intro x hx
    rcases Finset.mem_union.mp hx with h | h
    · rcases Finset.mem_union.mp (dqeStep_subset_union acc op h) with h2 | h2
      · exact Finset.mem_union_left _ h2
      · exact Finset.mem_union_right _ (Finset.mem_union_left _ h2)
    · exact Finset.mem_union_right _ (Finset.mem_union_right _ h)

theorem dqePass_bound (f : QirFunction) (live : Finset ℕ) :
    dqePass f live ⊆ live ∪ gateQubitsAll f :=
  foldl_dqeStep_bound (qirAllOps f) live

theorem dqeLiveAux_stable (f : QirFunction) :
    ∀ (n : Nat) (live : Finset ℕ),
      live ⊆ dqeSeeds f ∪ gateQubitsAll f →
      (dqeSeeds f ∪ gateQubitsAll f).card + 1 ≤ n + live.card →
      dqePass f (dqeLiveAux f n live) = dqeLiveAux f n live := by
  intro n
  induction n with
  | zero =>
    intro live hsub hcard
    exfalso
    have := Finset.card_le_card hsub
    omega
  | succ n ih =>
    intro live hsub hcard
    by_cases h : dqePass f live = live
    · simp only [dqeLiveAux]
      rw [if_pos h]
      exact h
    · simp only [dqeLiveAux]
      rw [if_neg h]
      apply ih
      · exact Finset.Subset.trans (dqePass_bound f live)
          (Finset.union_subset hsub Finset.subset_union_right)
      · have hss : live ⊂ dqePass f live :=
          lt_of_le_of_ne (dqePass_subset f live) (fun he => h he.symm)
        have hlt := Finset.card_lt_card hss
        omega

theorem dqePass_dqeLive (f : QirFunction) : dqePass f (dqeLive f) = dqeLive f := by
  refine dqeLiveAux_stable f (dqeFuel f) (dqeSeeds f) Finset.subset_union_left ?_
  unfold dqeFuel
  omega

theorem dqeLiveAux_supset (f : QirFunction) :
    ∀ (n : Nat) (live : Finset ℕ), live ⊆ dqeLiveAux f n live := by
  intro n
  induction n with
  | zero => intro live; exact Finset.Subset.refl _
  | succ n ih =>
    intro live
    simp only [dqeLiveAux]
    split
    · exact Finset.Subset.refl _
    · exact Finset.Subset.trans (dqePass_subset f live) (ih _)

theorem dqeSeeds_subset_dqeLive (f : QirFunction) : dqeSeeds f ⊆ dqeLive f :=
  dqeLiveAux_supset f (dqeFuel f) (dqeSeeds f)

theorem foldl_dqeStep_fix_each (l : List QirOp) :
    ∀ acc, l.foldl dqeStep acc = acc → ∀ op ∈ l, dqeStep acc op = acc := by
  induction l with
  | nil =>
    intro acc _ op hop
    exact absurd hop (List.not_mem_nil op)
  | cons a rest ih =>
    intro acc hfix op hop
    rw [List.foldl_cons] at hfix
    have h1 : acc ⊆ dqeStep acc a := dqeStep_subset acc a
    have h2 : dqeStep acc a ⊆ rest.foldl dqeStep (dqeStep acc a) :=
      foldl_dqeStep_subset rest (dqeStep acc a)
    have heq : dqeStep acc a = acc := by
      rw [hfix] at h2
      exact Finset.Subset.antisymm h2 h1
    rcases List.mem_cons.mp hop with h | h
    · rw [h]
      exact heq
    · have hfix2 : rest.foldl dqeStep acc = acc := by
        rw [← heq]
        rw [heq] at hfix
        rw [heq]
        exact hfix
      exact ih acc hfix2 op h

theorem DqeClosed_dqeLive (f : QirFunction) : DqeClosed f (dqeLive f) := by
  have hfix : dqePass f (dqeLive f) = dqeLive f := dqePass_dqeLive f
  have hseeds : dqeSeeds f ⊆ dqeLive f := dqeSeeds_subset_dqeLive f
  intro op hop
  have hstep : dqeStep (dqeLive f) op = dqeLive f :=
    foldl_dqeStep_fix_each (qirAllOps f) (dqeLive f) hfix op hop
  cases op
  case applyGate g args r =>
    intro hne
    simp only [dqeStep] at hstep
    rw [if_pos hne] at hstep
    exact Finset.union_eq_left.mp hstep
  case measure q c =>
    exact hseeds (mem_foldl_dqeSeedStep_measure (qirAllOps f) ∅ q c hop)
  case ret v =>
    cases v with
    | none => trivial
    | some v =>
      exact Finset.Subset.trans (mem_foldl_dqeSeedStep_ret (qirAllOps f) ∅ v hop) hseeds
  all_goals trivial

theorem foldl_dqeStep_le_closed (l : List QirOp) (S : Finset ℕ) :
    (∀ op ∈ l, dqeOpClosed S op) →
    ∀ acc, acc ⊆ S → l.foldl dqeStep acc ⊆ S := by
  induction l with
  | nil =>
    intro _ acc h
    exact h
  | cons op rest ih =>
    intro hcl acc hacc
    rw [List.foldl_cons]
    refine ih (fun o ho => hcl o (List.mem_cons_of_mem _ ho)) _ ?_
    have hc := hcl op (List.mem_cons_self op rest)
    cases op
    case applyGate g args r =>
      simp only [dqeStep]
      split
      · rename_i hne
        refine Finset.union_subset hacc (hc ?_)
        obtain ⟨x, hx⟩ := hne
        rw [Finset.mem_inter] at hx
        exact ⟨x, Finset.mem_inter.mpr ⟨hx.1, hacc hx.2⟩⟩
      · exact hacc
    all_goals exact hacc

theorem foldl_dqeSeedStep_le_closed (l : List QirOp) (S : Finset ℕ) :
    (∀ op ∈ l, dqeOpClosed S op) →
    ∀ s, s ⊆ S → l.foldl dqeSeedStep s ⊆ S := by
  induction l with
  | nil =>
    intro _ s h
    exact h
  | cons op rest ih =>
    intro hcl s hs
    rw [List.foldl_cons]
    refine ih (fun o ho => hcl o (List.mem_cons_of_mem _ ho)) _ ?_
    have hc := hcl op (List.mem_cons_self op rest)
    cases op
    case measure q c => exact Finset.insert_subset hc hs
    case ret v =>
      cases v with
      | none => exact hs
      | some v => exact Finset.union_subset hs hc
    all_goals exact hs

theorem dqeLiveAux_le_closed (f : QirFunction) (S : Finset ℕ)
    (hcl : DqeClosedOps (qirAllOps f) S) :
    ∀ (n : Nat) (live : Finset ℕ), live ⊆ S → dqeLiveAux f n live ⊆ S := by
  intro n
  induction n with
  | zero =>
    intro live h
    exact h
  | succ n ih =>
    intro live h
    simp only [dqeLiveAux]
    split
    · exact h
    · exact ih _ (foldl_dqeStep_le_closed (qirAllOps f) S hcl live h)

theorem dqeLive_least (f : QirFunction) (S : Finset ℕ) (hcl : DqeClosed f S) :
    dqeLive f ⊆ S :=
  dqeLiveAux_le_closed f S hcl (dqeFuel f) (dqeSeeds f)
    (foldl_dqeSeedStep_le_closed (qirAllOps f) S hcl ∅ (Finset.empty_subset S))

theorem dqeRetain_iff_removes (L : Finset ℕ) (op : QirOp) :
    dqeRetain L op = false ↔ dqeRemovesSpec L op := by
  cases op
  case applyGate g args r =>
    simp only [dqeRetain, dqeRemovesSpec]
    by_cases he : collectQubitsList args = ∅
    · rw [if_pos he]
      simp [he]
    · rw [if_neg he]
      constructor
      · intro h
        refine ⟨he, ?_⟩
        rw [decide_eq_false_iff_not] at h
        ext x
        simp only [Finset.mem_inter, Finset.not_mem_empty, iff_false]
        rintro ⟨h1, h2⟩
        exact h ⟨x, h1, h2⟩
      · rintro ⟨_, hdis⟩
        rw [decide_eq_false_iff_not]
        rintro ⟨q, hq, hqL⟩
        have hmem : q ∈ collectQubitsList args ∩ L := Finset.mem_inter.mpr ⟨hq, hqL⟩
        rw [hdis] at hmem
        exact Finset.not_mem_empty q hmem
  case reset q => simp [dqeRetain, dqeRemovesSpec]
  all_goals simp [dqeRetain, dqeRemovesSpec]

/-- **C7**: the live set computed by `dead_qubit_elimination` is the least
fixpoint of the liveness rules (qubits of any `Measure` are live, qubits
appearing transitively in any `Return` value are live, and all operands of
an `ApplyGate` are live as soon as one is); the pass then removes exactly
the `ApplyGate` ops whose operand set is non-empty and disjoint from the
live set and the `Reset` ops on a dead qubit, retaining every `AllocQubit`
(and every other op), by filtering each block with the retention
predicate. -/
theorem C7_dead_qubit_elimination_least_fixpoint (f : QirFunction) :
    DqeClosed f (dqeLive f) ∧
    (∀ S : Finset ℕ, DqeClosed f S → dqeLive f ⊆ S) ∧
    (∀ op : QirOp, dqeRetain (dqeLive f) op = false ↔ dqeRemovesSpec (dqeLive f) op) ∧
    (∀ (q : Nat) (s : Option BitState),
      dqeRetain (dqeLive f) (QirOp.allocQubit q s) = true) ∧
    (deadQubitElimination f).blocks
      = f.blocks.map (fun b => { b with ops := b.ops.filter (dqeRetain (dqeLive f)) }) :=
  ⟨DqeClosed_dqeLive f, fun S h => dqeLive_least f S h,
   fun op => dqeRetain_iff_removes (dqeLive f) op, fun _ _ => rfl, rfl⟩

theorem C7_witness :
    DqeClosed c7Fn ({0, 1} : Finset ℕ) ∧ dqeLive c7Fn ⊆ ({0, 1} : Finset ℕ) :=
  ⟨by decide, (C7_dead_qubit_elimination_least_fixpoint c7Fn).2.1 {0, 1} (by decide)⟩

end DeadQubitEliminationTheorems

section OptimizerIdempotenceTheorems

theorem filter_self_idem (l : List QirOp) (p : QirOp → Bool) :
    (l.filter p).filter p = l.filter p := by
  rw [List.filter_filter]
  exact List.filter_congr (fun a _ => Bool.and_self (p a))

theorem flatMap_ops_filter (bs : List QirBlock) (p : QirOp → Bool) :
    (bs.map fun b => { b with ops := b.ops.filter p }).flatMap (fun b => b.ops)
      = (bs.flatMap (fun b => b.ops)).filter p := by
  induction bs with
  | nil => rfl
  | cons b rest ih =>
    simp only [List.map_cons, List.flatMap_cons, List.filter_append, ih]

theorem qirAllOps_dqe (f : QirFunction) :
    qirAllOps (deadQubitElimination f) = (qirAllOps f).filter (dqeRetain (dqeLive f)) :=
  flatMap_ops_filter f.blocks (dqeRetain (dqeLive f))

theorem dqeOpClosed_of_removed {L L2 : Finset ℕ} (hsub : L2 ⊆ L) (op : QirOp)
    (hrem : dqeRemovesSpec L op) : dqeOpClosed L2 op := by
  cases op
  case applyGate g args r =>
    intro hne
    exfalso
    obtain ⟨x, hx⟩ := hne
    rw [Finset.mem_inter] at hx
    have hmem : x ∈ collectQubitsList args ∩ L :=
      Finset.mem_inter.mpr ⟨hx.1, hsub hx.2⟩
    rw [hrem.2] at hmem
    exact Finset.not_mem_empty x hmem
  case reset q => trivial
  all_goals exact False.elim hrem

theorem dqeLive_dqe (f : QirFunction) :
    dqeLive (deadQubitElimination f) = dqeLive f := by
  have hops := qirAllOps_dqe f
  have hsub : dqeLive (deadQubitElimination f) ⊆ dqeLive f := by
    apply dqeLive_least
    intro op hop
    rw [hops] at hop
    exact DqeClosed_dqeLive f op (List.mem_of_mem_filter hop)
  have hsup : dqeLive f ⊆ dqeLive (deadQubitElimination f) := by
    apply dqeLive_least
    intro op hop
    by_cases hr : dqeRetain (dqeLive f) op = true
    · have hop2 : op ∈ qirAllOps (deadQubitElimination f) := by
        rw [hops]
        exact List.mem_filter.mpr ⟨hop, hr⟩
      exact DqeClosed_dqeLive (deadQubitElimination f) op hop2
    · rw [Bool.not_eq_true] at hr
      exact dqeOpClosed_of_removed hsub op ((dqeRetain_iff_removes (dqeLive f) op).mp hr)
  exact Finset.Subset.antisymm hsub hsup

theorem blocks_filter_filter (bs : List QirBlock) (p : QirOp → Bool) :
    ((bs.map fun b => { b with ops := b.ops.filter p }).map
        fun b => { b with ops := b.ops.filter p })
      = bs.map fun b => { b with ops := b.ops.filter p } := by
  rw [List.map_map]
  apply List.map_congr_left
  intro b _
  show ({ b with ops := (b.ops.filter p).filter p } : QirBlock)
      = { b with ops := b.ops.filter p }
  rw [filter_self_idem]

theorem dqe_idem (f : QirFunction) :
    deadQubitElimination (deadQubitElimination f) = deadQubitElimination f := by
  have hb : ((deadQubitElimination f).blocks.map
      (fun b => { b with
        ops := b.ops.filter (dqeRetain (dqeLive (deadQubitElimination f))) }))
      = (deadQubitElimination f).blocks := by
    rw [dqeLive_dqe f]
    exact blocks_filter_filter f.blocks _
  show ({ deadQubitElimination f with
      blocks := (deadQubitElimination f).blocks.map
        (fun b => { b with
          ops := b.ops.filter (dqeRetain (dqeLive (deadQubitElimination f))) }) } : QirFunction)
    = deadQubitElimination f
  rw [hb]

theorem optimizeFunction_no_gc (o : QirOptimizer) (hgc : o.enableGateCancellation = false)
    (f : QirFunction) :
    optimizeFunction o f
      = if o.enableDeadQubitElimination then deadQubitElimination f else f := by
  simp [optimizeFunction, hgc, constantFolding, commonSubexpressionElimination,
    removeEmptyBlocks]

/-- **C6** (amended): the optimizer is idempotent whenever gate cancellation
is disabled — with both passes off `optimize_module` is the identity, and
dead-qubit elimination (the placeholder passes being identities) is itself
idempotent because a second pass recomputes the same live set on the
filtered function. -/
theorem C6_amended_idempotent_without_gate_cancellation (o : QirOptimizer)
    (hgc : o.enableGateCancellation = false) (m : QirModule) :
    optimizeModule o (optimizeModule o m) = optimizeModule o m := by
  by_cases hd : o.enableDeadQubitElimination = true
  · have hcond : ¬(¬ (o.enableGateCancellation = true) ∧
        ¬ (o.enableDeadQubitElimination = true)) := by
      simp [hd]
    have h1 : optimizeModule o m
        = { m with functions := m.functions.map (optimizeFunction o) } := by
      unfold optimizeModule
      rw [if_neg hcond]
    have h2 : optimizeModule o { m with functions := m.functions.map (optimizeFunction o) }
        = { m with
            functions := (m.functions.map (optimizeFunction o)).map (optimizeFunction o) } := by
      unfold optimizeModule
      rw [if_neg hcond]
    rw [h1, h2, List.map_map]
    congr 1
    apply List.map_congr_left
    intro f _
    show optimizeFunction o (optimizeFunction o f) = optimizeFunction o f
    simp only [optimizeFunction_no_gc o hgc, hd, if_true]
    exact dqe_idem f
  · have hd2 : o.enableDeadQubitElimination = false := by
      rcases Bool.eq_false_or_eq_true o.enableDeadQubitElimination with h | h
      · exact absurd h hd
      · exact h
    have hcond : (¬ (o.enableGateCancellation = true) ∧
        ¬ (o.enableDeadQubitElimination = true)) := by
      simp [hgc, hd2]
    have h1 : optimizeModule o m = m := by
      unfold optimizeModule
      rw [if_pos hcond]
    rw [h1]
    exact h1

theorem C6_amended_witness :
    optimizeModule (QirOptimizer.mk false true false false)
        (optimizeModule (QirOptimizer.mk false true false false) c6Module)
      = optimizeModule (QirOptimizer.mk false true false false) c6Module :=
  C6_amended_idempotent_without_gate_cancellation (QirOptimizer.mk false true false false)
    rfl c6Module

theorem c6OnceEval :
    optimizeModule (QirOptimizer.new true) c6Module
      = singleFnModule [QirOp.applyGate .H [.qubit 1] (some 2),
          QirOp.measure 0 0, QirOp.ret none] := by
  have hdqe : deadQubitElimination (singleBlockFn c6Ops) = singleBlockFn c6Ops := rfl
  have hops : gcScan c6Ops 0
      = [QirOp.applyGate .H [.qubit 1] (some 2), QirOp.measure 0 0, QirOp.ret none] := by
    simp [gcScan, cancelAt, gatesCancel, qirValueListEq, qirValueEq, c6Ops, List.eraseIdx]
  have hgc : gateCancellation (singleBlockFn c6Ops)
      = singleBlockFn [QirOp.applyGate .H [.qubit 1] (some 2),
          QirOp.measure 0 0, QirOp.ret none] := by
    simp only [gateCancellation, singleBlockFn, QirFunction.new, List.map_cons, List.map_nil]
    rw [hops]
  have hfn : optimizeFunction (QirOptimizer.new true) (singleBlockFn c6Ops)
      = singleBlockFn [QirOp.applyGate .H [.qubit 1] (some 2),
          QirOp.measure 0 0, QirOp.ret none] := by
    simp [optimizeFunction, QirOptimizer.new, constantFolding,
      commonSubexpressionElimination, removeEmptyBlocks, hdqe, hgc]
  unfold optimizeModule
  rw [if_neg (by simp [QirOptimizer.new])]
  simp only [c6Module, singleFnModule, QirModule.new, List.map_cons, List.map_nil]
  rw [hfn]

theorem c6SecondEval :
    optimizeModule (QirOptimizer.new true)
        (singleFnModule [QirOp.applyGate .H [.qubit 1] (some 2),
          QirOp.measure 0 0, QirOp.ret none])
      = singleFnModule [QirOp.measure 0 0, QirOp.ret none] := by
  have hdqe : deadQubitElimination (singleBlockFn [QirOp.applyGate .H [.qubit 1] (some 2),
        QirOp.measure 0 0, QirOp.ret none])
      = singleBlockFn [QirOp.measure 0 0, QirOp.ret none] := rfl
  have hops : gcScan [QirOp.measure 0 0, QirOp.ret none] 0
      = [QirOp.measure 0 0, QirOp.ret none] := by
    simp [gcScan, cancelAt, gatesCancel, qirValueListEq, qirValueEq, List.eraseIdx]
  have hgc : gateCancellation (singleBlockFn [QirOp.measure 0 0, QirOp.ret none])
      = singleBlockFn [QirOp.measure 0 0, QirOp.ret none] := by
    simp only [gateCancellation, singleBlockFn, QirFunction.new, List.map_cons, List.map_nil]
    rw [hops]
  have hfn : optimizeFunction (QirOptimizer.new true)
        (singleBlockFn [QirOp.applyGate .H [.qubit 1] (some 2),
          QirOp.measure 0 0, QirOp.ret none])
      = singleBlockFn [QirOp.measure 0 0, QirOp.ret none] := by
    simp [optimizeFunction, QirOptimizer.new, constantFolding,
      commonSubexpressionElimination, removeEmptyBlocks, hdqe, hgc]
  unfold optimizeModule
  rw [if_neg (by simp [QirOptimizer.new])]
  simp only [singleFnModule, QirModule.new, List.map_cons, List.map_nil]
  rw [hfn]

/-- **C6** counterexample: with every pass enabled, optimizing `c6Module`
(two cancelling CNOTs entangling qubit 1 with the measured qubit 0,
followed by `H` on qubit 1) once keeps the `H` gate, but a second run finds
qubit 1 dead after the CNOTs were cancelled and removes the `H`, so
`optimize_module` is not idempotent. -/
theorem C6_counterexample_not_idempotent :
    optimizeModule (QirOptimizer.new true) (optimizeModule (QirOptimizer.new true) c6Module)
      ≠ optimizeModule (QirOptimizer.new true) c6Module := by
  intro h
  rw [c6OnceEval, c6SecondEval] at h
  have hc := congrArg QirModule.gateCount h
  exact absurd hc (by decide)

end OptimizerIdempotenceTheorems

section FunctionExitTheorems

/-- **C2**: whenever checking a function body from the reset state does not
abort and leaves some binding `Alive`, `check_function` appends the
"ends with unconsumed qubits" error — with no condition on the declared
return type — and (for a one-function program) `check_program` reports it. -/
theorem C2_unconsumed_exit_error (st : ChkSt) (f : CFunction)
    (hok : (bodyRes st f).2 = false)
    (halive : aliveNames (bodyRes st f).1.qubitEnv ≠ []) :
    (checkFunction st f).1.errors
      = (bodyRes st f).1.errors
        ++ [exitMsg f.name (aliveNames (bodyRes st f).1.qubitEnv)] ∧
    (checkFunction st f).2 = false ∧
    (∀ prog : CProgram, prog.functions = [f] → st = initialChkSt prog →
      ∃ errs, checkProgram prog = Except.error errs ∧
        exitMsg f.name (aliveNames (bodyRes st f).1.qubitEnv) ∈ errs) := by
  have hres : checkFunction st f = (checkFunctionExit (bodyRes st f).1 f, false) := by
    unfold checkFunction
    show andThen (bodyRes st f) _ = _
    unfold andThen
    rw [hok]
    simp
  have hexit : (checkFunctionExit (bodyRes st f).1 f).errors
      = (bodyRes st f).1.errors
        ++ [exitMsg f.name (aliveNames (bodyRes st f).1.qubitEnv)] := by
    unfold checkFunctionExit
    rw [if_pos halive]
    rfl
  refine ⟨by rw [hres]; exact hexit, by rw [hres], ?_⟩
  intro prog hfns hst
  have hfuns : checkFuns (initialChkSt prog) prog.functions
      = (checkFunctionExit (bodyRes st f).1 f, false) := by
    rw [hfns, ← hst]
    show andThen (checkFunction st f) _ = _
    rw [hres]
    unfold andThen
    simp [checkFuns]
  refine ⟨(checkFunctionExit (bodyRes st f).1 f).errors, ?_, ?_⟩
  · unfold checkProgram
    rw [hfuns]
    have hne : (checkFunctionExit (bodyRes st f).1 f).errors ≠ [] := by
      rw [hexit]
      intro hcontra
      have := List.append_eq_nil.mp hcontra
      exact List.cons_ne_nil _ _ this.2
    simp [hne]
  · rw [hexit]
    exact List.mem_append_right _ (List.mem_singleton.mpr rfl)

theorem C2_witness :
    (checkFunction (initialChkSt c2Program) c2Fn).1.errors
      = (bodyRes (initialChkSt c2Program) c2Fn).1.errors
        ++ [exitMsg c2Fn.name
              (aliveNames (bodyRes (initialChkSt c2Program) c2Fn).1.qubitEnv)] ∧
    (checkFunction (initialChkSt c2Program) c2Fn).2 = false ∧
    (∀ prog : CProgram, prog.functions = [c2Fn] →
      initialChkSt c2Program = initialChkSt prog →
      ∃ errs, checkProgram prog = Except.error errs ∧
        exitMsg c2Fn.name
            (aliveNames (bodyRes (initialChkSt c2Program) c2Fn).1.qubitEnv) ∈ errs) :=
  C2_unconsumed_exit_error (initialChkSt c2Program) c2Fn (by decide) (by decide)

end FunctionExitTheorems

section CheckerInvariantTheorems

theorem envGet_envSet_self (env : List (String × QubitState)) (n : String)
    (v : QubitState) : envGet (envSet env n v) n = some v := by
  induction env with
  | nil => simp [envSet, envGet]
  | cons p rest ih =>
    obtain ⟨k, w⟩ := p
    by_cases h : k = n
    · simp [envSet, envGet, h]
    · simp [envSet, envGet, h, ih]

theorem envGet_envSet_ne (env : List (String × QubitState)) (n k : String)
    (v : QubitState) (h : n ≠ k) : envGet (envSet env n v) k = envGet env k := by
  induction env with
  | nil => simp [envSet, envGet, h]
  | cons p rest ih =>
    obtain ⟨k2, w⟩ := p
    by_cases h2 : k2 = n
    · subst h2
      simp [envSet, envGet, h]
    · simp only [envSet, if_neg h2, envGet]
      by_cases h3 : k2 = k
      · simp [h3]
      · simp [h3, ih]

theorem ChkStep_refl (st : ChkSt) (b : Bool) : ChkStep st (st, b) :=
  ⟨⟨[], by simp⟩, fun _ _ h _ => h, rfl, rfl, rfl⟩

theorem ChkStep_of_st_eq {st : ChkSt} {r : ChkRes} (h : r.1 = st) : ChkStep st r :=
  ⟨⟨[], by simp [h]⟩, fun _ _ hg _ => by rw [h]; exact hg, by rw [h], by rw [h], by rw [h]⟩

theorem ChkStep_trans {st : ChkSt} {r1 r2 : ChkRes}
    (h1 : ChkStep st r1) (h2 : ChkStep r1.1 r2) : ChkStep st r2 := by
  obtain ⟨⟨l1, he1⟩, hp1, hq1, hf1, hr1⟩ := h1
  obtain ⟨⟨l2, he2⟩, hp2, hq2, hf2, hr2⟩ := h2
  refine ⟨⟨l1 ++ l2, by rw [he2, he1, List.append_assoc]⟩, ?_, by rw [hq2, hq1],
    by rw [hf2, hf1], by rw [hr2, hr1]⟩
  intro n v hg hmv
  exact hp2 n v (hp1 n v hg hmv) hmv

theorem ChkStep_pushErr (st : ChkSt) (m : String) (b : Bool) :
    ChkStep st (pushErr st m, b) :=
  ⟨⟨[m], rfl⟩, fun _ _ h _ => h, rfl, rfl, rfl⟩

theorem ChkStep_andThen {st : ChkSt} {r : ChkRes} {k : ChkSt → ChkRes}
    (h1 : ChkStep st r) (h2 : ChkStep r.1 (k r.1)) : ChkStep st (andThen r k) := by
  unfold andThen
  split
  · exact h1
  · exact ChkStep_trans h1 h2

theorem useQubit_chkstep (st : ChkSt) (n : String) : ChkStep st (useQubit st n) := by
  unfold useQubit
  split
  · exact ChkStep_refl st false
  · exact ChkStep_pushErr st _ true
  · exact ChkStep_pushErr st _ true
  · exact ChkStep_pushErr st _ true
  · exact ChkStep_refl st false

theorem ChkStep_envSet_consumed (st : ChkSt) (name : String) (b : Bool)
    (h : envGet st.qubitEnv name = some QubitState.Alive ∨
      envGet st.qubitEnv name = none) :
    ChkStep st ({ st with qubitEnv := envSet st.qubitEnv name QubitState.Consumed }, b) := by
  refine ⟨⟨[], by simp⟩, ?_, rfl, rfl, rfl⟩
  intro n v hg hmv
  have hne : name ≠ n := by
    intro he
    rw [he] at h
    rcases h with h | h <;> rw [h] at hg <;> rcases hmv with hv | hv <;> simp_all
  show envGet (envSet st.qubitEnv name QubitState.Consumed) n = some v
  rw [envGet_envSet_ne st.qubitEnv name n QubitState.Consumed hne]
  exact hg

theorem consumeQubit_chkstep (st : ChkSt) (n : String) :
    ChkStep st (consumeQubit st n) := by
  cases hg : envGet st.qubitEnv n with
  | none =>
    simp [consumeQubit, useQubit, hg, andThen]
    exact ChkStep_envSet_consumed st n false (Or.inr hg)
  | some v =>
    cases v
    case Alive =>
      simp [consumeQubit, useQubit, hg, andThen]
      exact ChkStep_envSet_consumed st n false (Or.inl hg)
    case Uninitialized =>
      simp [consumeQubit, useQubit, hg, andThen]
      exact ChkStep_pushErr st _ _
    case Measured =>
      simp [consumeQubit, useQubit, hg, andThen]
      exact ChkStep_pushErr st _ _
    case Consumed =>
      simp [consumeQubit, useQubit, hg, andThen]
      exact ChkStep_pushErr st _ _

theorem cnotCheck_chkstep (st : ChkSt) (g : String) (allArgs : List CExpr) (b : Bool) :
    ChkStep st (cnotCheck st g allArgs, b) := by
  unfold cnotCheck
  repeat' split
  all_goals first
  | exact ChkStep_pushErr st _ _
  | exact ChkStep_refl st _

theorem useGateArgs_chkstep (args : List CExpr) :
    ∀ st, ChkStep st (useGateArgs st args) := by
  induction args with
  | nil =>
    intro st
    exact ChkStep_refl st false
  | cons a rest ih =>
    intro st
    cases a
    case var n => exact ChkStep_andThen (useQubit_chkstep st n) (ih _)
    all_goals exact ih st

theorem checkExpr_chkstep_aux (n : Nat) :
    (∀ e : CExpr, sizeOf e < n → ∀ st, ChkStep st (checkExpr st e)) ∧
    (∀ args : List CExpr, sizeOf args < n → ∀ st g allArgs,
      ChkStep st (checkGateArgs st g allArgs args)) ∧
    (∀ args : List CExpr, sizeOf args < n → ∀ st,
      ChkStep st (checkQCallArgs st args)) ∧
    (∀ args : List CExpr, sizeOf args < n → ∀ st,
      ChkStep st (checkCCallArgs st args)) := by
  induction n using Nat.strong_induction_on with
  | _ n ih =>
  refine ⟨?_, ?_, ?_, ?_⟩
  · intro e he st
    match e with
    | .litInt m =>
      simp only [checkExpr]
      exact ChkStep_refl st false
    | .litQubit bits =>
      simp only [checkExpr]
      exact ChkStep_refl st false
    | .var name =>
      simp only [checkExpr]
      repeat' split
      all_goals first
      | exact ChkStep_pushErr st _ _
      | exact ChkStep_refl st _
    | .gateApply g args =>
      have h1 : sizeOf args < sizeOf (CExpr.gateApply g args) := by simp <;> omega
      simp only [checkExpr]
      exact (ih _ he).2.1 args h1 st g args
    | .measure qe =>
      have h1 : sizeOf qe < sizeOf (CExpr.measure qe) := by simp <;> omega
      simp only [checkExpr]
      exact (ih _ he).1 qe h1 st
    | .call fname args =>
      have h1 : sizeOf args < sizeOf (CExpr.call fname args) := by simp <;> omega
      simp only [checkExpr]
      split
      · exact (ih _ he).2.2.1 args h1 st
      · exact (ih _ he).2.2.2 args h1 st
  · intro args ha st g allArgs
    match args with
    | [] =>
      simp only [checkGateArgs]
      exact ChkStep_refl st false
    | a :: rest =>
      have h1 : sizeOf a < sizeOf (a :: rest) := by simp <;> omega
      have h2 : sizeOf rest < sizeOf (a :: rest) := by simp <;> omega
      simp only [checkGateArgs]
      exact ChkStep_andThen ((ih _ ha).1 a h1 st)
        (ChkStep_trans (cnotCheck_chkstep _ g allArgs false)
          ((ih _ ha).2.1 rest h2 _ g allArgs))
  · intro args ha st
    match args with
    | [] =>
      simp only [checkQCallArgs]
      exact ChkStep_refl st false
    | a :: rest =>
      have h1 : sizeOf a < sizeOf (a :: rest) := by simp <;> omega
      have h2 : sizeOf rest < sizeOf (a :: rest) := by simp <;> omega
      simp only [checkQCallArgs]
      refine ChkStep_andThen ?_
        (ChkStep_andThen ((ih _ ha).1 a h1 _) ((ih _ ha).2.2.1 rest h2 _))
      cases a
      case var n2 =>
        dsimp only
        split
        · exact consumeQubit_chkstep st n2
        · exact ChkStep_refl st false
      all_goals exact ChkStep_refl st false
  · intro args ha st
    match args with
    | [] =>
      simp only [checkCCallArgs]
      exact ChkStep_refl st false
    | a :: rest =>
      have h1 : sizeOf a < sizeOf (a :: rest) := by simp <;> omega
      have h2 : sizeOf rest < sizeOf (a :: rest) := by simp <;> omega
      simp only [checkCCallArgs]
      exact ChkStep_andThen ((ih _ ha).1 a h1 st) ((ih _ ha).2.2.2 rest h2 _)

theorem checkExpr_chkstep (st : ChkSt) (e : CExpr) : ChkStep st (checkExpr st e) :=
  (checkExpr_chkstep_aux (sizeOf e + 1)).1 e (Nat.lt_succ_self _) st

theorem checkQCallArgs_chkstep (st : ChkSt) (args : List CExpr) :
    ChkStep st (checkQCallArgs st args) :=
  (checkExpr_chkstep_aux (sizeOf args + 1)).2.2.1 args (Nat.lt_succ_self _) st

theorem checkGateArgs_chkstep (st : ChkSt) (g : String) (allArgs args : List CExpr) :
    ChkStep st (checkGateArgs st g allArgs args) :=
  (checkExpr_chkstep_aux (sizeOf args + 1)).2.1 args (Nat.lt_succ_self _) st g allArgs

theorem andThen_preserves {r : ChkRes} {k : ChkSt → ChkRes} {n : String}
    {v : QubitState} (h1 : envGet r.1.qubitEnv n = some v)
    (h2 : envGet (k r.1).1.qubitEnv n = some v) :
    envGet (andThen r k).1.qubitEnv n = some v := by
  unfold andThen
  split
  · exact h1
  · exact h2

theorem returnCheck_qubitEnv (st : ChkSt) : (returnCheck st).qubitEnv = st.qubitEnv := by
  simp only [returnCheck]
  split <;> rfl

theorem andThen_checkExpr_preserves {r : ChkRes} {e : CExpr} {n : String}
    {v : QubitState} (hmv : v = QubitState.Measured ∨ v = QubitState.Consumed)
    (h1 : envGet r.1.qubitEnv n = some v) :
    envGet (andThen r (fun st1 => checkExpr st1 e)).1.qubitEnv n = some v :=
  andThen_preserves h1 ((checkExpr_chkstep _ e).2.1 n v h1 hmv)

theorem andThen_returnCheck_preserves {r : ChkRes} {n : String} {v : QubitState}
    (h1 : envGet r.1.qubitEnv n = some v) :
    envGet (andThen r (fun st2 => (returnCheck st2, false))).1.qubitEnv n = some v :=
  andThen_preserves h1
    (by show envGet (returnCheck r.1).qubitEnv n = some v
        rw [returnCheck_qubitEnv]
        exact h1)

theorem checkStatement_preserves_mc (st : ChkSt) (s : CStmt) (n : String)
    (v : QubitState) (hg : envGet st.qubitEnv n = some v)
    (hmv : v = QubitState.Measured ∨ v = QubitState.Consumed)
    (hnd : ∀ ty e, s ≠ CStmt.letDecl n ty e) :
    envGet (checkStatement st s).1.qubitEnv n = some v := by
  have hvne : ∀ (name : String), envGet st.qubitEnv name = some QubitState.Alive →
      name ≠ n := by
    intro name ha he
    rw [he, hg] at ha
    rcases hmv with h | h <;> rw [h] at ha <;> simp at ha
  cases s
  case letDecl name ty e =>
    have hne : name ≠ n := by
      intro h
      exact hnd ty e (by rw [h])
    cases ty
    case qubit =>
      simp only [checkStatement]
      have hg2 : envGet (envSet st.qubitEnv name QubitState.Uninitialized) n = some v := by
        rw [envGet_envSet_ne _ _ _ _ hne]
        exact hg
      apply andThen_preserves
      · exact (checkExpr_chkstep _ e).2.1 n v hg2 hmv
      · have hg3 := (checkExpr_chkstep
          { st with qubitEnv := envSet st.qubitEnv name QubitState.Uninitialized } e).2.1
            n v hg2 hmv
        split
        · show envGet (envSet _ name QubitState.Alive) n = some v
          rw [envGet_envSet_ne _ _ _ _ hne]
          exact hg3
        · exact hg3
    case cbit =>
      simp only [checkStatement]
      apply andThen_preserves
      · exact (checkExpr_chkstep st e).2.1 n v hg hmv
      · have hg1 := (checkExpr_chkstep st e).2.1 n v hg hmv
        split
        · exact (consumeQubit_chkstep _ _).2.1 n v hg1 hmv
        · exact hg1
    all_goals
      simp only [checkStatement]
      exact (checkExpr_chkstep st e).2.1 n v hg hmv
  case assign w e =>
    simp only [checkStatement]
    apply andThen_checkExpr_preserves hmv
    cases hw : envGet st.qubitEnv w
    case none => exact hg
    case some sw =>
      cases sw
      case Alive =>
        have hwn : w ≠ n := hvne w hw
        cases e
        case gateApply g args =>
          dsimp only
          apply andThen_preserves
          · exact (useGateArgs_chkstep args st).2.1 n v hg hmv
          · show envGet (envSet _ w QubitState.Alive) n = some v
            rw [envGet_envSet_ne _ _ _ _ hwn]
            exact (useGateArgs_chkstep args st).2.1 n v hg hmv
        all_goals exact hg
      case Uninitialized => exact hg
      case Measured => exact hg
      case Consumed => exact hg
  case exprS e =>
    simp only [checkStatement]
    have h1 := (checkExpr_chkstep st e).2.1 n v hg hmv
    apply andThen_preserves h1
    cases e
    case measure qe =>
      cases qe
      case var q => exact (consumeQubit_chkstep _ q).2.1 n v h1 hmv
      all_goals exact h1
    all_goals exact h1
  case ret vopt =>
    cases vopt
    case none =>
      simp only [checkStatement, returnCheck]
      split
      · exact hg
      · exact hg
    case some e =>
      simp only [checkStatement]
      have h1 := (checkExpr_chkstep st e).2.1 n v hg hmv
      apply andThen_preserves h1
      dsimp only
      apply andThen_returnCheck_preserves
      split
      · cases e
        case var q hc => exact (consumeQubit_chkstep _ q).2.1 n v h1 hmv
        all_goals exact h1
      · exact h1
  case other =>
    exact hg

/-- **C3**: a binding in state `Measured` or `Consumed` stays in that state
across every later statement that does not re-declare the name, and every
use of it is rejected with an error naming the qubit: `use_qubit` (the path
taken for gate arguments via the assign loop and for passing to a quantum
call via `consume_qubit`) aborts with the "use of measured/consumed qubit"
message, `check_expr` records the same message, and an assignment to the
binding records the "cannot assign ... after it has been measured/consumed"
message; the S3 program is rejected with exactly the assign-after-consume
and use-after-consume errors naming `q`. -/
theorem C3_use_after_measurement_rejected :
    (∀ (st : ChkSt) (n : String), envGet st.qubitEnv n = some QubitState.Measured →
      useQubit st n = (pushErr st (useMeasuredMsg n), true)) ∧
    (∀ (st : ChkSt) (n : String), envGet st.qubitEnv n = some QubitState.Consumed →
      useQubit st n = (pushErr st (useConsumedMsg n), true)) ∧
    (∀ (st : ChkSt) (n : String), envGet st.qubitEnv n = some QubitState.Measured →
      checkExpr st (CExpr.var n) = (pushErr st (useMeasuredMsg n), false)) ∧
    (∀ (st : ChkSt) (n : String), envGet st.qubitEnv n = some QubitState.Consumed →
      checkExpr st (CExpr.var n) = (pushErr st (useConsumedMsg n), false)) ∧
    (∀ (st : ChkSt) (v : String) (e : CExpr),
      envGet st.qubitEnv v = some QubitState.Measured →
      ∃ l, (checkStatement st (CStmt.assign v e)).1.errors
          = st.errors ++ assignAfterMsg v "measured" :: l) ∧
    (∀ (st : ChkSt) (v : String) (e : CExpr),
      envGet st.qubitEnv v = some QubitState.Consumed →
      ∃ l, (checkStatement st (CStmt.assign v e)).1.errors
          = st.errors ++ assignAfterMsg v "consumed" :: l) ∧
    (∀ (st : ChkSt) (s : CStmt) (n : String) (v : QubitState),
      envGet st.qubitEnv n = some v →
      (v = QubitState.Measured ∨ v = QubitState.Consumed) →
      (∀ ty e, s ≠ CStmt.letDecl n ty e) →
      envGet (checkStatement st s).1.qubitEnv n = some v) ∧
    checkProgram s3Program
      = Except.error [assignAfterMsg "q" "consumed", useConsumedMsg "q"] := by
  refine ⟨?_, ?_, ?_, ?_, ?_, ?_, ?_, ?_⟩
  · intro st n hg
    unfold useQubit
    rw [hg]
  · intro st n hg
    unfold useQubit
    rw [hg]
  · intro st n hg
    simp only [checkExpr]
    rw [hg]
  · intro st n hg
    simp only [checkExpr]
    rw [hg]
  · intro st v e hg
    have hstep : checkStatement st (CStmt.assign v e)
        = checkExpr (pushErr st (assignAfterMsg v "measured")) e := by
      simp only [checkStatement]
      rw [hg]
      rfl
    obtain ⟨l, hl⟩ := (checkExpr_chkstep (pushErr st (assignAfterMsg v "measured")) e).1
    refine ⟨l, ?_⟩
    rw [hstep, hl]
    simp [pushErr]
  · intro st v e hg
    have hstep : checkStatement st (CStmt.assign v e)
        = checkExpr (pushErr st (assignAfterMsg v "consumed")) e := by
      simp only [checkStatement]
      rw [hg]
      rfl
    obtain ⟨l, hl⟩ := (checkExpr_chkstep (pushErr st (assignAfterMsg v "consumed")) e).1
    refine ⟨l, ?_⟩
    rw [hstep, hl]
    simp [pushErr]
  · intro st s n v hg hmv hnd
    exact checkStatement_preserves_mc st s n v hg hmv hnd
  · rfl

theorem C3_witness :
    useQubit c3MeasuredSt "q" = (pushErr c3MeasuredSt (useMeasuredMsg "q"), true) ∧
    checkExpr c3MeasuredSt (CExpr.var "q")
      = (pushErr c3MeasuredSt (useMeasuredMsg "q"), false) ∧
    (∃ l, (checkStatement c3MeasuredSt
        (CStmt.assign "q" (CExpr.gateApply "X" [CExpr.var "q"]))).1.errors
        = c3MeasuredSt.errors ++ assignAfterMsg "q" "measured" :: l) ∧
    envGet (checkStatement c3MeasuredSt (CStmt.exprS (CExpr.litInt 0))).1.qubitEnv "q"
      = some QubitState.Measured :=
  ⟨C3_use_after_measurement_rejected.1 c3MeasuredSt "q" rfl,
   C3_use_after_measurement_rejected.2.2.1 c3MeasuredSt "q" rfl,
   C3_use_after_measurement_rejected.2.2.2.2.1 c3MeasuredSt "q"
     (CExpr.gateApply "X" [CExpr.var "q"]) rfl,
   C3_use_after_measurement_rejected.2.2.2.2.2.2.1 c3MeasuredSt
     (CStmt.exprS (CExpr.litInt 0)) "q" QubitState.Measured rfl (Or.inl rfl)
     (fun ty e h => by simp at h)⟩

end CheckerInvariantTheorems
